import Mathlib

/-!
Image loading in `kind`: name normalisation, retag decision, duplicate filter, node resolution,
load dispatch

A shallow embedding of

* `pkg/cluster/internal/providers/common/images.go`
  (`sanitizeImage`, `CheckIfImageReTagRequired`, `RemoveDuplicates`),
* `pkg/cmd/kind/load/docker-image/docker-image.go` (`runE`),
* `pkg/cluster/internal/create/actions/loadimage/loadimage.go` (`Action.Execute`),

followed by the properties proved about them.

Go strings are byte sequences.  They are represented here by Lean strings, read as
the sequence of their characters (`String.data`).  Every rune the embedded code
searches for (`/`, `.`, `:`) is ASCII, so it is one byte that never occurs inside
the encoding of another rune: cutting a string at the position of such a rune gives
the same prefix whether positions count bytes or characters.
-/

set_option autoImplicit false

namespace strings

/-- Go `strings.IndexRune(s, r)`: the position of the first occurrence of `r` in
`s`, or `-1` when `r` does not occur. -/
def IndexRune (s : String) (r : Char) : Int :=
  if s.data.indexOf r < s.data.length then (s.data.indexOf r : Int) else -1

/-- Go `strings.ContainsRune(s, r)`, which is `IndexRune(s, r) >= 0`. -/
def ContainsRune (s : String) (r : Char) : Bool :=
  decide (0 ≤ IndexRune s r)

/-- Go `strings.ContainsAny(s, chars)`: some character of `chars` occurs in `s`. -/
def ContainsAny (s chars : String) : Bool :=
  s.data.any (fun c => chars.data.contains c)

/-- Go slice expression `s[:i]` for `0 ≤ i ≤ len(s)`. -/
def sliceTo (s : String) (i : Int) : String :=
  ⟨s.data.take i.toNat⟩

end strings

namespace common

/-- The constant `defaultDomain` of `sanitizeImage`. -/
def defaultDomain : String := "docker.io/"

/-- The constant `officialRepoName` of `sanitizeImage`. -/
def officialRepoName : String := "library"

/-- The first statement group of `sanitizeImage` (images.go lines 92-96): the
implicit namespace is put in front of a reference without `/`. -/
def sanitizeImage.withRepo (image : String) : String :=
  if !strings.ContainsRune image '/' then officialRepoName ++ "/" ++ image else image

/-- The second statement group of `sanitizeImage` (images.go lines 98-101), on the
value `sanitizedName` has after the first one.  Go evaluates `||` left to right and
stops at `i == -1`, so the slice `sanitizedName[:i]` is only read for `i ≥ 0`; here
the condition is true for `i = -1` whatever the slice is. -/
def sanitizeImage.withDomain (sanitizedName : String) : String :=
  let i := strings.IndexRune sanitizedName '/'
  if i = -1 ∨ (!strings.ContainsAny (strings.sliceTo sanitizedName i) ".:"
      ∧ strings.sliceTo sanitizedName i ≠ "localhost") then
    defaultDomain ++ sanitizedName
  else sanitizedName

/-- The third statement group of `sanitizeImage` (images.go lines 103-106). -/
def sanitizeImage.withTag (sanitizedName : String) : String :=
  let i := strings.IndexRune sanitizedName ':'
  if i = -1 then sanitizedName ++ ":latest" else sanitizedName

/-- The function `sanitizeImage` of images.go: the three statement groups in order,
each on the value left by the one before. -/
def sanitizeImage (image : String) : String :=
  sanitizeImage.withTag (sanitizeImage.withDomain (sanitizeImage.withRepo image))

end common

/-- A Go error value.  `external` stands for an error produced by a collaborator
(node listing, tag fetching); the other two stand for the values built by
`fmt.Errorf("no nodes found for cluster %q", name)` and
`fmt.Errorf("unknown node: %q", name)`. -/
inductive GoError where
  | external (msg : String)
  | noNodesFound (cluster : String)
  | unknownNode (name : String)
deriving DecidableEq, Repr

/-- A Go `map[string]V`, as the list of assignments made to it, newest first.  A key
is bound to the value of its newest assignment; every list denotes a map, and
every map is denoted by the list of its entries. -/
structure GoMap (V : Type) where
  entries : List (String × V)

namespace GoMap

variable {V : Type}

/-- The map literal `map[string]V{}` (also the `nil` map, which reads the same). -/
def empty : GoMap V := ⟨[]⟩

/-- The comma-ok read `v, ok := m[k]`: `some v` when `k` is bound, `none` otherwise. -/
def get? (m : GoMap V) (k : String) : Option V :=
  (m.entries.find? (fun e => decide (e.1 = k))).map Prod.snd

/-- The assignment `m[k] = v`. -/
def set (m : GoMap V) (k : String) (v : V) : GoMap V :=
  ⟨(k, v) :: m.entries⟩

/-- Go `len(m)`: the number of distinct keys. -/
def len (m : GoMap V) : Nat :=
  (m.entries.map Prod.fst).dedup.length

/-- The plain read `m[k]` of a `map[string]bool`: the bound value, or the zero value
`false` when `k` is not bound. -/
def read (m : GoMap Bool) (k : String) : Bool :=
  (m.get? k).getD false

end GoMap

/-- Modelled from the spec: the interface `nodes.Node` is declared outside the
embedded files.  The spec calls it an "opaque handle with a stable, unique display
name"; `name` is the result of its `String()` method and `handle` tells apart the
objects behind the interface. -/
structure Node where
  name : String
  handle : Nat
deriving DecidableEq, Repr

namespace common

/-- The type `ImageTagFetcher` of images.go: `func(nodes.Node, string) (map[string]bool, error)`,
with `none` for the `nil` error. -/
abbrev ImageTagFetcher := Node → String → GoMap Bool × Option GoError

/-- The function `CheckIfImageReTagRequired` of images.go.  The result lists the named
results `(exists, reTagRequired, sanitizedImage)`, which start at their zero values. -/
def CheckIfImageReTagRequired (node : Node) (imageID imageName : String)
    (tagFetcher : ImageTagFetcher) : Bool × Bool × String :=
  let (tags, err) := tagFetcher node imageID
  if tags.len = 0 ∨ err ≠ none then
    (false, false, "")
  else
    let sanitizedImage := sanitizeImage imageName
    if tags.read sanitizedImage then
      (true, false, sanitizedImage)
    else
      (true, true, sanitizedImage)

/-- One iteration of the loop of `RemoveDuplicates` on the state
`(result, seenKeys)`. -/
def RemoveDuplicates.step (st : List String × GoMap Unit) (k : String) :
    List String × GoMap Unit :=
  match st.2.get? k with
  | none => (st.1 ++ [k], st.2.set k ())
  | some _ => st

/-- The function `RemoveDuplicates` of images.go. -/
def RemoveDuplicates (slice : List String) : List String :=
  (slice.foldl RemoveDuplicates.step ([], GoMap.empty)).1

end common

namespace load

/-- The struct `flagpole` of docker-image.go. -/
structure flagpole where
  Name : String
  Nodes : List String

/-- How a call of `runE` ends: it returns an error of its own (`returned`), or it
returns whatever `provider.LoadImage(args, candidateNodes)` returns (`loadImage`),
the only place where a load is started. -/
inductive Outcome where
  | returned (err : GoError)
  | loadImage (args : List String) (candidateNodes : List Node)
deriving DecidableEq, Repr

/-- The loop of `runE` that fills `nodesByName` (docker-image.go lines 93-98). -/
def runE.nodesByName (nodeList : List Node) : GoMap Node :=
  nodeList.foldl (fun m node => m.set node.name node) GoMap.empty

/-- The loop of `runE` over `flags.Nodes` (docker-image.go lines 105-111), from the
value `candidateNodes` has so far; `Except.error` is the early `return`. -/
def runE.pick (nodesByName : GoMap Node) :
    List String → List Node → Except GoError (List Node)
  | [], candidateNodes => .ok candidateNodes
  | name :: rest, candidateNodes =>
    match nodesByName.get? name with
    | none => .error (.unknownNode name)
    | some node => runE.pick nodesByName rest (candidateNodes ++ [node])

/-- The function `runE` of docker-image.go.  `listInternalNodes` is
`provider.ListInternalNodes`, a collaborator outside the embedded files, with
`none` for the `nil` error. -/
def runE (listInternalNodes : String → List Node × Option GoError) (flags : flagpole)
    (args : List String) : Outcome :=
  let (nodeList, err) := listInternalNodes flags.Name
  match err with
  | some e => .returned e
  | none =>
    if nodeList.length = 0 then
      .returned (.noNodesFound flags.Name)
    else
      let nodesByName := runE.nodesByName nodeList
      if flags.Nodes.length > 0 then
        match runE.pick nodesByName flags.Nodes [] with
        | .error e => .returned e
        | .ok candidateNodes => .loadImage args candidateNodes
      else
        .loadImage args nodeList

end load

namespace errors

/-- A Go `func() error`, with `none` for the `nil` error. -/
abbrev Task := Unit → Option GoError

/-- Modelled from the spec: `errors.UntilErrorConcurrent` is called by `Action.Execute`
but defined outside the embedded files.  Spec 5: "once started, a Load Task runs to
completion", and "completion order across nodes is unspecified".  This is the order in
which the `n` started tasks finish: the tasks listed in `completion` first, in the
order of their first listing, then the tasks it does not list, in start order.  Every
task finishes exactly once, whatever `completion` is. -/
def UntilErrorConcurrent.arrivals (n : Nat) (completion : List Nat) : List Nat :=
  ((completion.filter (fun i => decide (i < n))).reverse.dedup).reverse
    ++ (List.range n).filter (fun i => decide (i ∉ completion))

/-- Modelled from the spec: part of `errors.UntilErrorConcurrent`, defined outside the
embedded files.  Spec 3: a "Task Outcome" is "success, or a single error value"; this
is the outcome of task `i`. -/
def UntilErrorConcurrent.outcome (funcs : List Task) (i : Nat) : Option GoError :=
  match funcs[i]? with
  | some f => f ()
  | none => none

/-- Modelled from the spec: part of `errors.UntilErrorConcurrent`, defined outside the
embedded files.  Spec 9 describes the runner of the source as "a channel that only
yields the earliest completing error": the outcomes are taken from the channel in the
order of arrival, and the first error taken is returned at once.  The second component
counts the outcomes taken before the runner returns. -/
def UntilErrorConcurrent.receive : List (Option GoError) → Nat → Option GoError × Nat
  | [], received => (none, received)
  | some e :: _, received => (some e, received + 1)
  | none :: rest, received => UntilErrorConcurrent.receive rest (received + 1)

/-- Modelled from the spec: part of `errors.UntilErrorConcurrent`, defined outside the
embedded files: the result of the runner and the number of task outcomes it has waited
for when it returns. -/
def UntilErrorConcurrent.run (funcs : List Task) (completion : List Nat) :
    Option GoError × Nat :=
  UntilErrorConcurrent.receive
    ((UntilErrorConcurrent.arrivals funcs.length completion).map
      (UntilErrorConcurrent.outcome funcs)) 0

/-- Modelled from the spec: `errors.UntilErrorConcurrent`, called by `Action.Execute` but
defined outside the embedded files.  Spec 3: "the overall operation's result is the
first Task Outcome carrying an error, by completion order, or success if none error";
spec 9: "the source only reports the first error from concurrent dispatch".  The
policy of spec 4.6 (wait for all, first error by start order) is what spec 9 says
"replaces" this idiom of the source, so it is not what the runner called here does. -/
def UntilErrorConcurrent (funcs : List Task) (completion : List Nat) : Option GoError :=
  (UntilErrorConcurrent.run funcs completion).1

end errors

namespace loadimage

/-- The fields of `config.Node` read by `Action.Execute` (`nodeCfg.Role`,
`nodeCfg.LoadImages`); the type is declared outside the embedded files. -/
structure ConfigNode where
  Role : String
  LoadImages : List String
deriving DecidableEq, Repr

/-- The fields of `config.Cluster` read by `Action.Execute` (`ctx.Config.Name`,
`ctx.Config.Nodes`); the type is declared outside the embedded files. -/
structure ConfigCluster where
  Name : String
  Nodes : List ConfigNode
deriving DecidableEq, Repr

/-- The closure returned by `common.MakeNodeNamer`, a `func(string) string` defined
outside the embedded files: `state` is what the closure has captured, and `call`
gives the name returned for a role and the state left behind. -/
structure NodeNamer (σ : Type) where
  state : σ
  call : σ → String → String × σ

/-- The closure built by `loadImage(images, nodeList)` in `Action.Execute`: a load
task, which calls `ctx.Provider.LoadImage(images, nodeList)` when it is run. -/
structure LoadTask where
  images : List String
  nodeList : List Node
deriving DecidableEq, Repr

/-- How a call of `Action.Execute` ends: it returns an error before it builds any
task (`returned`), or it builds the tasks `fns`, hands them to
`errors.UntilErrorConcurrent` and returns `err`, its result (`dispatched`). -/
inductive Outcome where
  | returned (err : GoError)
  | dispatched (fns : List LoadTask) (err : Option GoError)
deriving DecidableEq, Repr

/-- The loop of `Action.Execute` that fills `nodesByName` (loadimage.go lines 49-54). -/
def Execute.nodesByName (nodeList : List Node) : GoMap Node :=
  nodeList.foldl (fun m node => m.set node.name node) GoMap.empty

/-- One iteration of the loop of `Action.Execute` over `ctx.Config.Nodes`
(loadimage.go lines 64-73), on the state of the node namer and the value of `fns`. -/
def Execute.step {σ : Type} (nodesByName : GoMap Node) (call : σ → String → String × σ)
    (st : σ × List LoadTask) (nodeCfg : ConfigNode) : σ × List LoadTask :=
  let (nodeName, namer) := call st.1 nodeCfg.Role
  let imageNames := common.RemoveDuplicates nodeCfg.LoadImages
  if imageNames.length = 0 then
    (namer, st.2)
  else
    match nodesByName.get? nodeName with
    | some node => (namer, st.2 ++ [⟨imageNames, [node]⟩])
    | none => (namer, st.2)

/-- The value of `fns` after the loop of `Action.Execute` over `ctx.Config.Nodes`. -/
def Execute.fns {σ : Type} (nodesByName : GoMap Node) (nodeNamer : NodeNamer σ)
    (nodes : List ConfigNode) : List LoadTask :=
  (nodes.foldl (Execute.step nodesByName nodeNamer.call) (nodeNamer.state, [])).2

/-- The method `Action.Execute` of loadimage.go.  `listNodes` is
`ctx.Provider.ListNodes`, `loadImage` is `ctx.Provider.LoadImage`, `MakeNodeNamer` is
`common.MakeNodeNamer` and `completion` is the order in which the started tasks
finish; status and log output are left out. -/
def Execute {σ : Type} (listNodes : String → List Node × Option GoError)
    (loadImage : List String → List Node → Option GoError)
    (MakeNodeNamer : String → NodeNamer σ) (completion : List Nat)
    (config : ConfigCluster) : Outcome :=
  let (nodeList, err) := listNodes config.Name
  match err with
  | some e => .returned e
  | none =>
    if nodeList.length = 0 then
      .returned (.noNodesFound config.Name)
    else
      let nodesByName := Execute.nodesByName nodeList
      let fns := Execute.fns nodesByName (MakeNodeNamer config.Name) config.Nodes
      .dispatched fns
        (errors.UntilErrorConcurrent
          (fns.map (fun t _ => loadImage t.images t.nodeList)) completion)

end loadimage

/-! ## Vocabulary of the statements -/

namespace common

/-- The part of a reference before its first `/` (the whole reference when it has
no `/`). -/
def beforeFirstSlash (ref : String) : String :=
  ⟨ref.data.takeWhile (fun c => decide (c ≠ '/'))⟩

/-- The part of a reference after its last `/` (the whole reference when it has
no `/`). -/
def afterLastSlash (ref : String) : String :=
  ⟨(ref.data.reverse.takeWhile (fun c => decide (c ≠ '/'))).reverse⟩

/-- A leading component counts as a registry domain when it contains `.` or `:` or
is exactly `localhost`. -/
def IsRegistryDomain (d : String) : Prop :=
  '.' ∈ d.data ∨ ':' ∈ d.data ∨ d = "localhost"

instance (d : String) : Decidable (IsRegistryDomain d) := by
  unfold IsRegistryDomain; infer_instance

/-- Following the spec's words for the duplicate filter ("stable, first-occurrence
order preserved, exact string equality"): the sub-list of `names` that keeps the
element at position `i` exactly when it does not occur at a position before `i`. -/
def keepFirstOccurrences (names : List String) : List String :=
  (names.enum.filter (fun p => decide (p.2 ∉ names.take p.1))).map Prod.snd

end common

namespace loadimage

/-- The node names computed by the node namer in the loop of `Action.Execute`, one per
configured node, in the order of the calls. -/
def Execute.nodeNames {σ : Type} (call : σ → String → String × σ) :
    σ → List ConfigNode → List String
  | _, [] => []
  | s, nodeCfg :: rest =>
    (call s nodeCfg.Role).1 :: Execute.nodeNames call (call s nodeCfg.Role).2 rest

/-- The load task, if any, that one iteration of the loop of `Action.Execute` appends
to `fns` for the configured node `p.1` when the node namer has returned `p.2` for it. -/
def Execute.taskFor (nodesByName : GoMap Node) (p : ConfigNode × String) : Option LoadTask :=
  if (common.RemoveDuplicates p.1.LoadImages).length = 0 then none
  else (nodesByName.get? p.2).map
    (fun node => ⟨common.RemoveDuplicates p.1.LoadImages, [node]⟩)

/-- A node namer for the examples: it joins the cluster name and the role and keeps no
state. -/
def plainNamer (clusterName : String) : NodeNamer Unit :=
  ⟨(), fun _ role => (clusterName ++ "-" ++ role, ())⟩

end loadimage

namespace common

end common

/-! ## Facts about the string primitives -/

namespace strings

theorem IndexRune_eq_neg_one_iff (s : String) (r : Char) :
    IndexRune s r = -1 ↔ r ∉ s.data := by
  unfold IndexRune
  constructor
  · intro h
    split at h
    · omega
    · rename_i hlt
      intro hm
      exact hlt (List.indexOf_lt_length.2 hm)
  · intro h
    have : ¬ s.data.indexOf r < s.data.length := fun hlt => h (List.indexOf_lt_length.1 hlt)
    rw [if_neg this]

theorem IndexRune_of_mem (s : String) (r : Char) (h : r ∈ s.data) :
    IndexRune s r = (s.data.indexOf r : Int) := by
  unfold IndexRune
  rw [if_pos (List.indexOf_lt_length.2 h)]

theorem ContainsRune_iff (s : String) (r : Char) :
    ContainsRune s r = true ↔ r ∈ s.data := by
  unfold ContainsRune
  by_cases h : r ∈ s.data
  · simp [IndexRune_of_mem s r h, h]
  · simp [(IndexRune_eq_neg_one_iff s r).2 h, h]

theorem ContainsAny_dot_colon (s : String) :
    ContainsAny s ".:" = true ↔ ('.' ∈ s.data ∨ ':' ∈ s.data) := by
  unfold ContainsAny
  simp only [List.any_eq_true]
  constructor
  · rintro ⟨c, hc, h⟩
    have : c = '.' ∨ c = ':' := by simpa using h
    rcases this with rfl | rfl
    · exact Or.inl hc
    · exact Or.inr hc
  · rintro (h | h)
    · exact ⟨_, h, by decide⟩
    · exact ⟨_, h, by decide⟩

theorem take_indexOf_eq_takeWhile (a : Char) (l : List Char) :
    l.take (l.indexOf a) = l.takeWhile (fun c => decide (c ≠ a)) := by
  induction l with
  | nil => rfl
  | cons x xs ih =>
    by_cases h : x = a
    · subst h; simp [List.indexOf_cons_self]
    · rw [List.indexOf_cons_ne _ h]
      simp [List.takeWhile_cons, h, ih]

end strings

/-! ## Facts about the three steps of `sanitizeImage` -/

namespace common

theorem takeWhile_append_of_stop (p : Char → Bool) (l₁ l₂ : List Char)
    (h : ∃ x ∈ l₁, p x = false) :
    (l₁ ++ l₂).takeWhile p = l₁.takeWhile p := by
  induction l₁ with
  | nil => simp at h
  | cons x xs ih =>
    by_cases hx : p x = true
    · have h2 : ∃ y ∈ xs, p y = false := by
        obtain ⟨y, hy, hpy⟩ := h
        rcases List.mem_cons.1 hy with rfl | hy2
        · simp [hx] at hpy
        · exact ⟨y, hy2, hpy⟩
      simp [List.takeWhile_cons, hx, ih h2]
    · simp [List.takeWhile_cons, hx]

theorem beforeFirstSlash_append (a b : String) (h : '/' ∈ a.data) :
    beforeFirstSlash (a ++ b) = beforeFirstSlash a := by
  unfold beforeFirstSlash
  rw [String.data_append, takeWhile_append_of_stop _ _ _ ⟨'/', h, by simp⟩]

theorem sliceTo_IndexRune_slash (s : String) (h : '/' ∈ s.data) :
    strings.sliceTo s (strings.IndexRune s '/') = beforeFirstSlash s := by
  unfold strings.sliceTo beforeFirstSlash
  rw [strings.IndexRune_of_mem s _ h, Int.toNat_ofNat, strings.take_indexOf_eq_takeWhile]

theorem withRepo_of_not_mem (image : String) (h : '/' ∉ image.data) :
    sanitizeImage.withRepo image = "library/" ++ image := by
  have hc : strings.ContainsRune image '/' = false := by
    rw [Bool.eq_false_iff]
    exact fun hc => h ((strings.ContainsRune_iff _ _).1 hc)
  unfold sanitizeImage.withRepo
  rw [hc]
  rfl

theorem withRepo_of_mem (image : String) (h : '/' ∈ image.data) :
    sanitizeImage.withRepo image = image := by
  unfold sanitizeImage.withRepo
  rw [(strings.ContainsRune_iff _ _).2 h]
  rfl

theorem withDomain_of_domain (s : String) (h : '/' ∈ s.data)
    (hd : IsRegistryDomain (beforeFirstSlash s)) :
    sanitizeImage.withDomain s = s := by
  unfold sanitizeImage.withDomain
  simp only
  rw [sliceTo_IndexRune_slash s h]
  have h1 : ¬ strings.IndexRune s '/' = -1 := fun e =>
    (strings.IndexRune_eq_neg_one_iff _ _).1 e h
  rw [if_neg]
  rintro (e | ⟨hany, hne⟩)
  · exact h1 e
  · rcases hd with hd | hd | hd
    · simp [(strings.ContainsAny_dot_colon _).2 (Or.inl hd)] at hany
    · simp [(strings.ContainsAny_dot_colon _).2 (Or.inr hd)] at hany
    · exact hne hd

theorem withDomain_of_not_domain (s : String) (h : '/' ∈ s.data)
    (hd : ¬ IsRegistryDomain (beforeFirstSlash s)) :
    sanitizeImage.withDomain s = "docker.io/" ++ s := by
  unfold sanitizeImage.withDomain
  simp only
  rw [sliceTo_IndexRune_slash s h]
  rw [if_pos]
  · rfl
  · right
    refine ⟨?_, fun e => hd (Or.inr (Or.inr e))⟩
    have : ¬ strings.ContainsAny (beforeFirstSlash s) ".:" = true := fun hc =>
      hd (by
        rcases (strings.ContainsAny_dot_colon _).1 hc with h1 | h1
        · exact Or.inl h1
        · exact Or.inr (Or.inl h1))
    simpa using this

theorem withTag_of_mem (s : String) (h : ':' ∈ s.data) :
    sanitizeImage.withTag s = s := by
  unfold sanitizeImage.withTag
  simp only
  rw [if_neg (fun e => (strings.IndexRune_eq_neg_one_iff _ _).1 e h)]

theorem withTag_of_not_mem (s : String) (h : ':' ∉ s.data) :
    sanitizeImage.withTag s = s ++ ":latest" := by
  unfold sanitizeImage.withTag
  simp only
  rw [if_pos ((strings.IndexRune_eq_neg_one_iff _ _).2 h)]

/-- A reference with a `/`, a registry domain before the first `/` and a `:` somewhere
is returned as it is. -/
theorem sanitizeImage_of_qualified (r : String) (h : '/' ∈ r.data)
    (hd : IsRegistryDomain (beforeFirstSlash r)) (ht : ':' ∈ r.data) :
    sanitizeImage r = r := by
  unfold sanitizeImage
  rw [withRepo_of_mem r h, withDomain_of_domain r h hd, withTag_of_mem r ht]

/-- The result of the first two steps has a `/` and a registry domain before it. -/
theorem withDomain_withRepo_spec (s : String) :
    '/' ∈ (sanitizeImage.withDomain (sanitizeImage.withRepo s)).data ∧
      IsRegistryDomain (beforeFirstSlash (sanitizeImage.withDomain (sanitizeImage.withRepo s))) := by
  have key : ∀ t : String, '/' ∈ t.data →
      '/' ∈ (sanitizeImage.withDomain t).data ∧
        IsRegistryDomain (beforeFirstSlash (sanitizeImage.withDomain t)) := by
    intro t ht
    by_cases hd : IsRegistryDomain (beforeFirstSlash t)
    · rw [withDomain_of_domain t ht hd]; exact ⟨ht, hd⟩
    · rw [withDomain_of_not_domain t ht hd]
      refine ⟨by simp [String.data_append, ht], ?_⟩
      rw [beforeFirstSlash_append _ _ (by decide)]
      decide
  by_cases h : '/' ∈ s.data
  · rw [withRepo_of_mem s h]; exact key s h
  · rw [withRepo_of_not_mem s h]
    exact key _ (by simp [String.data_append])

/-- The result of `sanitizeImage` has a `/`, a registry domain before its first `/`
and a `:`. -/
theorem sanitizeImage_qualified (s : String) :
    '/' ∈ (sanitizeImage s).data ∧ IsRegistryDomain (beforeFirstSlash (sanitizeImage s)) ∧
      ':' ∈ (sanitizeImage s).data := by
  obtain ⟨h1, h2⟩ := withDomain_withRepo_spec s
  unfold sanitizeImage
  generalize sanitizeImage.withDomain (sanitizeImage.withRepo s) = t at h1 h2
  by_cases ht : ':' ∈ t.data
  · rw [withTag_of_mem t ht]; exact ⟨h1, h2, ht⟩
  · rw [withTag_of_not_mem t ht]
    refine ⟨by simp [String.data_append, h1], ?_, by simp [String.data_append]⟩
    rw [beforeFirstSlash_append _ _ h1]
    exact h2

end common

/-! ## Name normalisation -/

/-- C1: name normalisation is idempotent: for every string `s`,
`sanitizeImage (sanitizeImage s) = sanitizeImage s`. -/
theorem sanitizeImage_idempotent (s : String) :
    common.sanitizeImage (common.sanitizeImage s) = common.sanitizeImage s := by
  obtain ⟨h1, h2, h3⟩ := common.sanitizeImage_qualified s
  exact common.sanitizeImage_of_qualified _ h1 h2 h3

/-- C2: for a reference `ref` without `/`, `sanitizeImage ref` is
`"docker.io/library/" ++ ref ++ ":latest"` when `ref` has no `:` and
`"docker.io/library/" ++ ref` when it has one; in particular `"nginx"`, `"nginx:1.19"`
and `""` give `"docker.io/library/nginx:latest"`, `"docker.io/library/nginx:1.19"` and
`"docker.io/library/:latest"`. -/
theorem sanitizeImage_without_slash (ref : String) (h : '/' ∉ ref.data) :
    (':' ∉ ref.data → common.sanitizeImage ref = "docker.io/library/" ++ ref ++ ":latest") ∧
    (':' ∈ ref.data → common.sanitizeImage ref = "docker.io/library/" ++ ref) ∧
    common.sanitizeImage "nginx" = "docker.io/library/nginx:latest" ∧
    common.sanitizeImage "nginx:1.19" = "docker.io/library/nginx:1.19" ∧
    common.sanitizeImage "" = "docker.io/library/:latest" := by
  have hs : '/' ∈ ("library/" ++ ref).data := by simp [String.data_append]
  have hd : ¬ common.IsRegistryDomain (common.beforeFirstSlash ("library/" ++ ref)) := by
    rw [common.beforeFirstSlash_append _ _ (by decide)]
    decide
  have e : "docker.io/" ++ ("library/" ++ ref) = "docker.io/library/" ++ ref := by
    rw [← String.append_assoc]; rfl
  have h2 : common.sanitizeImage.withDomain (common.sanitizeImage.withRepo ref)
      = "docker.io/library/" ++ ref := by
    rw [common.withRepo_of_not_mem ref h, common.withDomain_of_not_domain _ hs hd, e]
  have hc : ':' ∈ ("docker.io/library/" ++ ref).data ↔ ':' ∈ ref.data := by
    rw [String.data_append, List.mem_append]
    constructor
    · rintro (h' | h')
      · exact absurd h' (by decide)
      · exact h'
    · exact Or.inr
  refine ⟨fun hn => ?_, fun hy => ?_, by decide, by decide, by decide⟩
  · unfold common.sanitizeImage
    rw [h2, common.withTag_of_not_mem _ (fun hm => hn (hc.1 hm))]
  · unfold common.sanitizeImage
    rw [h2, common.withTag_of_mem _ (hc.2 hy)]

/-- Witness of C2 at the reference `"nginx"`. -/
theorem sanitizeImage_without_slash_witness :
    '/' ∉ "nginx".data ∧
      common.sanitizeImage "nginx" = "docker.io/library/" ++ "nginx" ++ ":latest" :=
  ⟨by decide, (sanitizeImage_without_slash "nginx" (by decide)).1 (by decide)⟩

/-- C3: for a reference `ref` with a `/`, let `d` be the part before its first `/`.
If `d` contains `.` or `:` or is `localhost`, no registry domain is added and the
result begins with `ref` (it is `ref`, followed by `:latest` when `ref` has no `:`);
otherwise the result begins with `"docker.io/" ++ ref` (it is that string, followed
by `:latest` when `ref` has no `:`).  In particular `"myregistry.example.com/foo"`
gives `"myregistry.example.com/foo:latest"` and `"localhost/foo"` gives
`"localhost/foo:latest"`. -/
theorem sanitizeImage_with_slash (ref : String) (h : '/' ∈ ref.data) :
    (common.IsRegistryDomain (common.beforeFirstSlash ref) →
      common.sanitizeImage ref = ref ++ (if ':' ∈ ref.data then "" else ":latest") ∧
      ref.data <+: (common.sanitizeImage ref).data) ∧
    (¬ common.IsRegistryDomain (common.beforeFirstSlash ref) →
      common.sanitizeImage ref
        = "docker.io/" ++ ref ++ (if ':' ∈ ref.data then "" else ":latest") ∧
      ("docker.io/" ++ ref).data <+: (common.sanitizeImage ref).data) ∧
    common.sanitizeImage "myregistry.example.com/foo" = "myregistry.example.com/foo:latest" ∧
    common.sanitizeImage "localhost/foo" = "localhost/foo:latest" := by
  have tag : ∀ t : String,
      common.sanitizeImage.withTag t = t ++ (if ':' ∈ t.data then "" else ":latest") := by
    intro t
    by_cases ht : ':' ∈ t.data
    · rw [common.withTag_of_mem t ht, if_pos ht]
      exact String.ext (by simp [String.data_append])
    · rw [common.withTag_of_not_mem t ht, if_neg ht]
  have pre : ∀ a b c : String, a = b ++ c → b.data <+: a.data := by
    intro a b c e
    rw [e, String.data_append]
    exact List.prefix_append _ _
  refine ⟨fun hd => ?_, fun hd => ?_, by decide, by decide⟩
  · have e : common.sanitizeImage ref = ref ++ (if ':' ∈ ref.data then "" else ":latest") := by
      unfold common.sanitizeImage
      rw [common.withRepo_of_mem ref h, common.withDomain_of_domain ref h hd, tag]
    exact ⟨e, pre _ _ _ e⟩
  · have hc : ':' ∈ ("docker.io/" ++ ref).data ↔ ':' ∈ ref.data := by
      rw [String.data_append, List.mem_append]
      constructor
      · rintro (h' | h')
        · exact absurd h' (by decide)
        · exact h'
      · exact Or.inr
    have e : common.sanitizeImage ref
        = "docker.io/" ++ ref ++ (if ':' ∈ ref.data then "" else ":latest") := by
      unfold common.sanitizeImage
      rw [common.withRepo_of_mem ref h, common.withDomain_of_not_domain ref h hd, tag]
      simp only [hc]
    exact ⟨e, pre _ _ _ e⟩

/-- Witness of C3 at the reference `"localhost/foo"`. -/
theorem sanitizeImage_with_slash_witness :
    '/' ∈ "localhost/foo".data ∧
      common.IsRegistryDomain (common.beforeFirstSlash "localhost/foo") ∧
      common.sanitizeImage "localhost/foo"
        = "localhost/foo" ++ (if ':' ∈ "localhost/foo".data then "" else ":latest") :=
  ⟨by decide, by decide,
    ((sanitizeImage_with_slash "localhost/foo" (by decide)).1 (by decide)).1⟩

/-- C4 (evaluation at the failing input): for `"registry.local:5000/app"`, whose only
`:` is in the port of the registry domain, `sanitizeImage` appends nothing: the result
is the input itself and has no `:` after its last `/`. -/
theorem sanitizeImage_port_without_tag :
    common.sanitizeImage "registry.local:5000/app" = "registry.local:5000/app" ∧
      ':' ∉ (common.afterLastSlash (common.sanitizeImage "registry.local:5000/app")).data := by
  decide

/-! ## Retag decision -/

namespace common

theorem CheckIfImageReTagRequired_of_failure (node : Node) (imageID imageName : String)
    (tagFetcher : ImageTagFetcher)
    (h : (tagFetcher node imageID).1.len = 0 ∨ (tagFetcher node imageID).2 ≠ none) :
    CheckIfImageReTagRequired node imageID imageName tagFetcher = (false, false, "") := by
  unfold CheckIfImageReTagRequired
  simp only
  rw [if_pos h]

theorem CheckIfImageReTagRequired_of_tags (node : Node) (imageID imageName : String)
    (tagFetcher : ImageTagFetcher)
    (h : ¬ ((tagFetcher node imageID).1.len = 0 ∨ (tagFetcher node imageID).2 ≠ none)) :
    CheckIfImageReTagRequired node imageID imageName tagFetcher
      = (true, !(tagFetcher node imageID).1.read (sanitizeImage imageName),
          sanitizeImage imageName) := by
  unfold CheckIfImageReTagRequired
  simp only
  rw [if_neg h]
  cases (tagFetcher node imageID).1.read (sanitizeImage imageName) <;> simp

theorem GoMap_read_eq_true_iff (m : GoMap Bool) (k : String) :
    m.read k = true ↔ m.get? k = some true := by
  unfold GoMap.read
  cases m.get? k <;> simp

end common

/-- C5 (counterexample): the fetched map has the single key
`"docker.io/library/nginx:1.19"`, bound to `false`, and the fetcher returns no error.
For the name `"nginx:1.19"` the sanitized name is that key, yet the call returns
`reTagRequired = true`. -/
theorem CheckIfImageReTagRequired_key_bound_to_false :
    (⟨[("docker.io/library/nginx:1.19", false)]⟩ : GoMap Bool).len ≠ 0 ∧
    ((⟨[("docker.io/library/nginx:1.19", false)]⟩ : GoMap Bool).get?
        (common.sanitizeImage "nginx:1.19")).isSome = true ∧
    common.CheckIfImageReTagRequired ⟨"node", 0⟩ "sha256:0" "nginx:1.19"
        (fun _ _ => (⟨[("docker.io/library/nginx:1.19", false)]⟩, none))
      = (true, true, "docker.io/library/nginx:1.19") := by
  decide

/-- C5 (amended): when the tag fetcher returns no error and a non-empty tag map,
`CheckIfImageReTagRequired` returns `exists = true` and
`sanitizedImage = sanitizeImage requestedName`, and it returns `reTagRequired = false`
exactly when the fetched map binds `sanitizedImage` to `true` (`reTagRequired = true`
when `sanitizedImage` is no key of the map or is bound to `false`).  With the tags
`{"docker.io/library/nginx:1.19": true}`, the name `"nginx:1.19"` gives `(true, false)`
and `"nginx:latest"` gives `(true, true)`. -/
theorem CheckIfImageReTagRequired_decision (node : Node) (imageID imageName : String)
    (tagFetcher : common.ImageTagFetcher) (tags : GoMap Bool)
    (hfetch : tagFetcher node imageID = (tags, none)) (hlen : tags.len ≠ 0) :
    (common.CheckIfImageReTagRequired node imageID imageName tagFetcher).1 = true ∧
    (common.CheckIfImageReTagRequired node imageID imageName tagFetcher).2.2
      = common.sanitizeImage imageName ∧
    ((common.CheckIfImageReTagRequired node imageID imageName tagFetcher).2.1 = false ↔
      tags.get? (common.sanitizeImage imageName) = some true) ∧
    ((common.CheckIfImageReTagRequired node imageID imageName tagFetcher).2.1 = true ↔
      tags.get? (common.sanitizeImage imageName) ≠ some true) ∧
    common.CheckIfImageReTagRequired node imageID "nginx:1.19"
        (fun _ _ => (⟨[("docker.io/library/nginx:1.19", true)]⟩, none))
      = (true, false, "docker.io/library/nginx:1.19") ∧
    common.CheckIfImageReTagRequired node imageID "nginx:latest"
        (fun _ _ => (⟨[("docker.io/library/nginx:1.19", true)]⟩, none))
      = (true, true, "docker.io/library/nginx:latest") := by
  have hno : ¬ ((tagFetcher node imageID).1.len = 0 ∨ (tagFetcher node imageID).2 ≠ none) := by
    rw [hfetch]
    simp [hlen]
  rw [common.CheckIfImageReTagRequired_of_tags node imageID imageName tagFetcher hno, hfetch]
  refine ⟨rfl, rfl, ?_, ?_, ?_, ?_⟩
  · simp [common.GoMap_read_eq_true_iff]
  · rw [Ne, ← common.GoMap_read_eq_true_iff]
    simp
  · rw [common.CheckIfImageReTagRequired_of_tags _ _ _ _ (by decide)]
    decide
  · rw [common.CheckIfImageReTagRequired_of_tags _ _ _ _ (by decide)]
    decide

/-- Witness of C5 (amended): a fetcher that returns the one tag
`"docker.io/library/nginx:1.19"`, asked about the name `"nginx:1.19"`. -/
theorem CheckIfImageReTagRequired_decision_witness :
    (common.CheckIfImageReTagRequired ⟨"node", 0⟩ "sha256:0" "nginx:1.19"
        (fun _ _ => (⟨[("docker.io/library/nginx:1.19", true)]⟩, none))).1 = true :=
  (CheckIfImageReTagRequired_decision ⟨"node", 0⟩ "sha256:0" "nginx:1.19"
    (fun _ _ => (⟨[("docker.io/library/nginx:1.19", true)]⟩, none))
    ⟨[("docker.io/library/nginx:1.19", true)]⟩ rfl (by decide)).1

/-- C6: `CheckIfImageReTagRequired` returns `exists = false` if and only if the tag
fetcher returns an error or an empty (or `nil`) tag map, for every requested name;
in particular it does so when the fetcher returns both an error and a non-empty
map. -/
theorem CheckIfImageReTagRequired_exists_false_iff (node : Node) (imageID imageName : String)
    (tagFetcher : common.ImageTagFetcher) :
    ((common.CheckIfImageReTagRequired node imageID imageName tagFetcher).1 = false ↔
      ((tagFetcher node imageID).2 ≠ none ∨ (tagFetcher node imageID).1.entries = [])) ∧
    (common.CheckIfImageReTagRequired node imageID imageName
        (fun _ _ => (⟨[("docker.io/library/nginx:1.19", true)]⟩,
          some (GoError.external "exec failed")))).1 = false := by
  have hlen : (tagFetcher node imageID).1.len = 0 ↔ (tagFetcher node imageID).1.entries = [] := by
    unfold GoMap.len
    rw [List.length_eq_zero, List.dedup_eq_nil, List.map_eq_nil_iff]
  constructor
  · by_cases h : (tagFetcher node imageID).1.len = 0 ∨ (tagFetcher node imageID).2 ≠ none
    · rw [common.CheckIfImageReTagRequired_of_failure _ _ _ _ h]
      rw [← hlen]
      simp only [true_iff]
      exact h.symm
    · rw [common.CheckIfImageReTagRequired_of_tags _ _ _ _ h]
      rw [← hlen]
      constructor
      · intro h'; cases h'
      · intro h'; exact absurd h'.symm h
  · rw [common.CheckIfImageReTagRequired_of_failure _ _ _ _ (Or.inr (by simp))]

/-! ## Duplicate filter -/

namespace common

theorem GoMap_get?_set {V : Type} (m : GoMap V) (k k' : String) (v : V) :
    (m.set k v).get? k' = if k = k' then some v else m.get? k' := by
  unfold GoMap.set GoMap.get?
  by_cases h : k = k'
  · simp [List.find?_cons, h]
  · simp [List.find?_cons, h]

theorem GoMap_get?_empty {V : Type} (k : String) : (GoMap.empty : GoMap V).get? k = none := rfl

/-- The sub-list of `names` kept by the spec's filter when the elements of `pre`
stand before `names`. -/
theorem keepFirstOccurrences_cons_aux (pre : List String) (x : String) (xs : List String) :
    ((List.enumFrom pre.length (x :: xs)).filter
        (fun p => decide (p.2 ∉ (pre ++ x :: xs).take p.1))).map Prod.snd
      = (if x ∈ pre then [] else [x]) ++
        ((List.enumFrom (pre ++ [x]).length xs).filter
          (fun p => decide (p.2 ∉ ((pre ++ [x]) ++ xs).take p.1))).map Prod.snd := by
  have e1 : (pre ++ x :: xs).take pre.length = pre := by simp
  have e2 : (pre ++ [x]) ++ xs = pre ++ x :: xs := by simp
  have e3 : (pre ++ [x]).length = pre.length + 1 := by simp
  rw [List.enumFrom_cons, List.filter_cons, e2, e3]
  simp only [e1]
  by_cases hx : x ∈ pre
  · simp [hx]
  · simp [hx]

/-- The loop of `RemoveDuplicates`, started after the prefix `pre` has been consumed. -/
theorem RemoveDuplicates_loop (l : List String) :
    ∀ (pre res : List String) (seen : GoMap Unit),
      (∀ k, seen.get? k = none ↔ k ∉ pre) →
      (l.foldl RemoveDuplicates.step (res, seen)).1
        = res ++ ((List.enumFrom pre.length l).filter
            (fun p => decide (p.2 ∉ (pre ++ l).take p.1))).map Prod.snd := by
  induction l with
  | nil => intro pre res seen _; simp
  | cons x xs ih =>
    intro pre res seen hseen
    rw [List.foldl_cons, keepFirstOccurrences_cons_aux]
    by_cases hx : x ∈ pre
    · have hsome : seen.get? x ≠ none := fun e => (hseen x).1 e hx
      have hstep : RemoveDuplicates.step (res, seen) x = (res, seen) := by
        unfold RemoveDuplicates.step
        cases hg : seen.get? x with
        | none => exact absurd hg hsome
        | some u => simp [hg]
      rw [hstep, ih (pre ++ [x]) res seen, if_pos hx]
      · simp
      · intro k
        rw [hseen k]
        constructor
        · intro hk hm
          rcases List.mem_append.1 hm with h1 | h1
          · exact hk h1
          · rw [List.mem_singleton] at h1; subst h1; exact hk hx
        · intro hk hm
          exact hk (List.mem_append_left _ hm)
    · have hnone : seen.get? x = none := (hseen x).2 hx
      have hstep : RemoveDuplicates.step (res, seen) x = (res ++ [x], seen.set x ()) := by
        unfold RemoveDuplicates.step
        simp [hnone]
      rw [hstep, ih (pre ++ [x]) (res ++ [x]) (seen.set x ()), if_neg hx]
      · simp
      · intro k
        rw [GoMap_get?_set]
        by_cases hk : x = k
        · subst hk; simp
        · have hk2 : ¬ k = x := fun e => hk e.symm
          simp [hk, hk2, hseen k]

theorem RemoveDuplicates_eq_keepFirstOccurrences (l : List String) :
    RemoveDuplicates l = keepFirstOccurrences l := by
  unfold RemoveDuplicates keepFirstOccurrences
  rw [RemoveDuplicates_loop l [] [] GoMap.empty (by intro k; simp [GoMap_get?_empty])]
  simp [List.enum]

theorem keepFirstOccurrences_sublist (l : List String) :
    List.Sublist (keepFirstOccurrences l) l := by
  unfold keepFirstOccurrences
  have h := (List.filter_sublist (p := fun p : Nat × String => decide (p.2 ∉ l.take p.1))
    l.enum).map Prod.snd
  rwa [List.enum_map_snd] at h

/-- The loop of `RemoveDuplicates` keeps `result` free of duplicates and adds to it
exactly the elements it reads, as long as `seenKeys` holds the elements of `result`. -/
theorem RemoveDuplicates_loop_invariant (l : List String) :
    ∀ (res : List String) (seen : GoMap Unit),
      res.Nodup → (∀ k, seen.get? k = none ↔ k ∉ res) →
      (l.foldl RemoveDuplicates.step (res, seen)).1.Nodup ∧
        ∀ k, k ∈ (l.foldl RemoveDuplicates.step (res, seen)).1 ↔ k ∈ res ∨ k ∈ l := by
  induction l with
  | nil => intro res seen hnd _; simpa using hnd
  | cons x xs ih =>
    intro res seen hnd hseen
    rw [List.foldl_cons]
    cases hg : seen.get? x with
    | none =>
      have hx : x ∉ res := (hseen x).1 hg
      have hstep : RemoveDuplicates.step (res, seen) x = (res ++ [x], seen.set x ()) := by
        unfold RemoveDuplicates.step
        simp [hg]
      have hnd2 : (res ++ [x]).Nodup := by
        rw [List.nodup_append]
        refine ⟨hnd, List.nodup_singleton x, ?_⟩
        intro a ha hb
        rw [List.mem_singleton] at hb
        subst hb
        exact hx ha
      have hseen2 : ∀ k, (seen.set x ()).get? k = none ↔ k ∉ res ++ [x] := by
        intro k
        rw [GoMap_get?_set]
        by_cases hk : x = k
        · subst hk; simp
        · have hk2 : ¬ k = x := fun e => hk e.symm
          simp [hk, hk2, hseen k]
      rw [hstep]
      obtain ⟨h1, h2⟩ := ih (res ++ [x]) (seen.set x ()) hnd2 hseen2
      refine ⟨h1, fun k => ?_⟩
      rw [h2 k]
      simp only [List.mem_append, List.mem_singleton, List.mem_cons]
      tauto
    | some u =>
      have hx : x ∈ res := by
        by_contra hx
        rw [(hseen x).2 hx] at hg
        cases hg
      have hstep : RemoveDuplicates.step (res, seen) x = (res, seen) := by
        unfold RemoveDuplicates.step
        simp [hg]
      rw [hstep]
      obtain ⟨h1, h2⟩ := ih res seen hnd hseen
      refine ⟨h1, fun k => ?_⟩
      rw [h2 k, List.mem_cons]
      constructor
      · rintro (h | h)
        · exact Or.inl h
        · exact Or.inr (Or.inr h)
      · rintro (h | h | h)
        · exact Or.inl h
        · subst h; exact Or.inl hx
        · exact Or.inr h

end common

/-- C7: `RemoveDuplicates` is stable and keeps first occurrences: its result is the
sub-list of the input that keeps each element exactly at the position of its first
occurrence and drops every later occurrence, under exact string equality (so `"nginx"`
and `"nginx:latest"` are both kept), and `RemoveDuplicates ["a","b","a","c","b"]` is
`["a","b","c"]`. -/
theorem RemoveDuplicates_keeps_first_occurrences (slice : List String) :
    common.RemoveDuplicates slice = common.keepFirstOccurrences slice ∧
    List.Sublist (common.RemoveDuplicates slice) slice ∧
    common.RemoveDuplicates ["nginx", "nginx:latest"] = ["nginx", "nginx:latest"] ∧
    common.RemoveDuplicates ["a", "b", "a", "c", "b"] = ["a", "b", "c"] := by
  refine ⟨common.RemoveDuplicates_eq_keepFirstOccurrences slice, ?_, by decide, by decide⟩
  rw [common.RemoveDuplicates_eq_keepFirstOccurrences]
  exact common.keepFirstOccurrences_sublist slice

/-- C8: the result of `RemoveDuplicates` contains no string twice and has exactly the
members of the input; so it is empty if and only if the input is empty, and it is
never longer than the input. -/
theorem RemoveDuplicates_nodup_same_members (slice : List String) :
    (common.RemoveDuplicates slice).Nodup ∧
    (∀ k, k ∈ common.RemoveDuplicates slice ↔ k ∈ slice) ∧
    (common.RemoveDuplicates slice = [] ↔ slice = []) ∧
    (common.RemoveDuplicates slice).length ≤ slice.length := by
  obtain ⟨h1, h2⟩ := common.RemoveDuplicates_loop_invariant slice [] GoMap.empty
    List.nodup_nil (by intro k; simp [common.GoMap_get?_empty])
  have hmem : ∀ k, k ∈ common.RemoveDuplicates slice ↔ k ∈ slice := by
    intro k
    unfold common.RemoveDuplicates
    rw [h2 k]
    simp
  refine ⟨h1, hmem, ?_, ?_⟩
  · constructor
    · intro he
      rw [List.eq_nil_iff_forall_not_mem]
      intro k hk
      have := (hmem k).2 hk
      rw [he] at this
      exact List.not_mem_nil _ this
    · intro he
      subst he
      rfl
  · have hs : List.Sublist (common.RemoveDuplicates slice) slice := by
      rw [common.RemoveDuplicates_eq_keepFirstOccurrences]
      exact common.keepFirstOccurrences_sublist slice
    exact hs.length_le

/-! ## Node resolution -/

namespace load

theorem nodesByName_entries (nodeList : List Node) :
    ∀ m : GoMap Node,
      (nodeList.foldl (fun m node => m.set node.name node) m).entries
        = nodeList.reverse.map (fun n => (n.name, n)) ++ m.entries := by
  induction nodeList with
  | nil => intro m; simp
  | cons x xs ih =>
    intro m
    rw [List.foldl_cons, ih]
    simp [GoMap.set]

theorem nodesByName_get?_eq_none (nodeList : List Node) (name : String) :
    (runE.nodesByName nodeList).get? name = none ↔ ∀ n ∈ nodeList, n.name ≠ name := by
  unfold runE.nodesByName GoMap.get?
  rw [nodesByName_entries]
  simp [GoMap.empty, List.find?_eq_none]

theorem nodesByName_get?_eq_some (nodeList : List Node) (name : String) (node : Node)
    (h : (runE.nodesByName nodeList).get? name = some node) :
    node ∈ nodeList ∧ node.name = name := by
  unfold runE.nodesByName GoMap.get? at h
  rw [nodesByName_entries] at h
  rw [Option.map_eq_some'] at h
  obtain ⟨e, he, hsnd⟩ := h
  have hm := List.mem_of_find?_eq_some he
  have hp := List.find?_some he
  simp only [GoMap.empty, List.append_nil, List.mem_map, List.mem_reverse] at hm
  obtain ⟨n, hn, rfl⟩ := hm
  simp only at hsnd
  subst hsnd
  exact ⟨hn, by simpa using hp⟩

/-- The selection loop stops at the first name that is bound to no node. -/
theorem pick_of_unknown (m : GoMap Node) (names : List String) (name : String) :
    ∀ acc : List Node,
      names.find? (fun nm => decide (m.get? nm = none)) = some name →
      runE.pick m names acc = .error (.unknownNode name) := by
  induction names with
  | nil => intro acc h; simp at h
  | cons x xs ih =>
    intro acc h
    cases hg : m.get? x with
    | none =>
      have : x = name := by simpa [List.find?_cons, hg] using h
      subst this
      simp [runE.pick, hg]
    | some node =>
      have h2 : xs.find? (fun nm => decide (m.get? nm = none)) = some name := by
        simpa [List.find?_cons, hg] using h
      simp only [runE.pick, hg]
      exact ih _ h2

/-- When every name is bound, the selection loop appends the bound nodes in order. -/
theorem pick_of_known (m : GoMap Node) (names : List String) :
    ∀ acc : List Node,
      names.find? (fun nm => decide (m.get? nm = none)) = none →
      ∃ picked, runE.pick m names acc = .ok (acc ++ picked) ∧
        List.Forall₂ (fun nm c => m.get? nm = some c) names picked := by
  induction names with
  | nil => intro acc _; exact ⟨[], by simp [runE.pick], List.Forall₂.nil⟩
  | cons x xs ih =>
    intro acc h
    cases hg : m.get? x with
    | none => simp [List.find?_cons, hg] at h
    | some node =>
      have h2 : xs.find? (fun nm => decide (m.get? nm = none)) = none := by
        simpa [List.find?_cons, hg] using h
      obtain ⟨picked, hp, hf⟩ := ih (acc ++ [node]) h2
      refine ⟨node :: picked, ?_, List.Forall₂.cons hg hf⟩
      simp only [runE.pick, hg]
      rw [hp]
      simp

/-- The part of `runE` after a successful, non-empty node listing with a non-empty
list of requested names. -/
theorem runE_of_request (listInternalNodes : String → List Node × Option GoError)
    (flags : flagpole) (args : List String) (nodeList : List Node)
    (hlist : listInternalNodes flags.Name = (nodeList, none))
    (hnodes : nodeList ≠ []) (hreq : flags.Nodes ≠ []) :
    runE listInternalNodes flags args =
      match runE.pick (runE.nodesByName nodeList) flags.Nodes [] with
      | .error e => .returned e
      | .ok candidateNodes => .loadImage args candidateNodes := by
  have h1 : ¬ nodeList.length = 0 := fun e => hnodes (List.length_eq_zero.1 e)
  have h2 : flags.Nodes.length > 0 := List.length_pos.2 hreq
  unfold runE
  rw [hlist]
  simp only [h1, h2, if_true, if_false]

theorem map_name_of_forall₂ (nodeList : List Node) (names : List String) (picked : List Node)
    (h : List.Forall₂ (fun name node => node ∈ nodeList ∧ node.name = name) names picked) :
    picked.map Node.name = names := by
  induction h with
  | nil => rfl
  | cons h _ ih => simp [h.2, ih]

theorem find?_unknown_congr (nodeList : List Node) (names : List String) :
    names.find? (fun nm => decide ((runE.nodesByName nodeList).get? nm = none))
      = names.find? (fun nm => decide (∀ n ∈ nodeList, n.name ≠ nm)) := by
  congr 1
  funext nm
  simp only [nodesByName_get?_eq_none]

end load

/-- C9: for a non-empty live node list and a non-empty list of requested names, node
resolution in `runE` fails if and only if some requested name is the name of no live
node; when it fails, `runE` returns the unknown-node error for the first such name in
request order and starts no load (when no name is unknown it goes on to the load call).
With the nodes `n1`, `n2`, `n3` and the request `["n4"]` it fails with unknown node
`"n4"`. -/
theorem runE_unknown_node (listInternalNodes : String → List Node × Option GoError)
    (flags : load.flagpole) (args : List String) (nodeList : List Node)
    (hlist : listInternalNodes flags.Name = (nodeList, none))
    (hnodes : nodeList ≠ []) (hreq : flags.Nodes ≠ []) :
    ((∃ e, load.runE listInternalNodes flags args = .returned e) ↔
      ∃ name ∈ flags.Nodes, ∀ n ∈ nodeList, n.name ≠ name) ∧
    (∀ name, flags.Nodes.find? (fun nm => decide (∀ n ∈ nodeList, n.name ≠ nm)) = some name →
      load.runE listInternalNodes flags args = .returned (.unknownNode name)) ∧
    (flags.Nodes.find? (fun nm => decide (∀ n ∈ nodeList, n.name ≠ nm)) = none →
      ∃ candidateNodes,
        load.runE listInternalNodes flags args = .loadImage args candidateNodes) ∧
    load.runE (fun _ => ([⟨"n1", 1⟩, ⟨"n2", 2⟩, ⟨"n3", 3⟩], none)) ⟨flags.Name, ["n4"]⟩ args
      = .returned (.unknownNode "n4") := by
  have hrun := load.runE_of_request listInternalNodes flags args nodeList hlist hnodes hreq
  have hbad : ∀ name,
      flags.Nodes.find? (fun nm => decide (∀ n ∈ nodeList, n.name ≠ nm)) = some name →
      load.runE listInternalNodes flags args = .returned (.unknownNode name) := by
    intro name hf
    rw [← load.find?_unknown_congr] at hf
    rw [hrun, load.pick_of_unknown _ _ _ [] hf]
  have hgood : flags.Nodes.find? (fun nm => decide (∀ n ∈ nodeList, n.name ≠ nm)) = none →
      ∃ candidateNodes,
        load.runE listInternalNodes flags args = .loadImage args candidateNodes := by
    intro hf
    rw [← load.find?_unknown_congr] at hf
    obtain ⟨picked, hp, _⟩ := load.pick_of_known _ _ [] hf
    exact ⟨[] ++ picked, by rw [hrun, hp]⟩
  refine ⟨?_, hbad, hgood, ?_⟩
  · constructor
    · rintro ⟨e, he⟩
      cases hf : flags.Nodes.find? (fun nm => decide (∀ n ∈ nodeList, n.name ≠ nm)) with
      | none =>
        obtain ⟨c, hc⟩ := hgood hf
        rw [hc] at he
        cases he
      | some name =>
        exact ⟨name, List.mem_of_find?_eq_some hf, by simpa using List.find?_some hf⟩
    · rintro ⟨name, hmem, hname⟩
      cases hf : flags.Nodes.find? (fun nm => decide (∀ n ∈ nodeList, n.name ≠ nm)) with
      | none =>
        rw [List.find?_eq_none] at hf
        exact absurd (by simpa using hname) (hf name hmem)
      | some first => exact ⟨_, hbad first hf⟩
  · rw [load.runE_of_request _ _ args [⟨"n1", 1⟩, ⟨"n2", 2⟩, ⟨"n3", 3⟩] rfl (by simp) (by simp)]
    rfl

/-- Witness of C9: the nodes `n1`, `n2`, `n3` and the request `["n2", "n4", "n5"]`,
whose first unknown name is `"n4"`. -/
theorem runE_unknown_node_witness :
    load.runE (fun _ => ([⟨"n1", 1⟩, ⟨"n2", 2⟩, ⟨"n3", 3⟩], none))
        ⟨"kind", ["n2", "n4", "n5"]⟩ ["busybox"]
      = .returned (.unknownNode "n4") :=
  (runE_unknown_node (fun _ => ([⟨"n1", 1⟩, ⟨"n2", 2⟩, ⟨"n3", 3⟩], none))
    ⟨"kind", ["n2", "n4", "n5"]⟩ ["busybox"] [⟨"n1", 1⟩, ⟨"n2", 2⟩, ⟨"n3", 3⟩]
    rfl (by decide) (by decide)).2.1 "n4" (by decide)

/-- C10: when node resolution in `runE` succeeds for a non-empty list of requested
names, the load is started with the given images and a target node list that has one
entry per requested name, in request order, the i-th entry being a live node whose
name is the i-th requested name.  With the nodes `n1`, `n2`, `n3` and the request
`["n2"]` the target list is exactly the node `n2`. -/
theorem runE_selected_nodes (listInternalNodes : String → List Node × Option GoError)
    (flags : load.flagpole) (args loaded : List String) (nodeList candidateNodes : List Node)
    (hlist : listInternalNodes flags.Name = (nodeList, none))
    (hnodes : nodeList ≠ []) (hreq : flags.Nodes ≠ [])
    (hok : load.runE listInternalNodes flags args = .loadImage loaded candidateNodes) :
    loaded = args ∧
    candidateNodes.length = flags.Nodes.length ∧
    List.Forall₂ (fun name node => node ∈ nodeList ∧ node.name = name)
      flags.Nodes candidateNodes ∧
    candidateNodes.map Node.name = flags.Nodes ∧
    load.runE (fun _ => ([⟨"n1", 1⟩, ⟨"n2", 2⟩, ⟨"n3", 3⟩], none)) ⟨flags.Name, ["n2"]⟩ args
      = .loadImage args [⟨"n2", 2⟩] := by
  have hrun := load.runE_of_request listInternalNodes flags args nodeList hlist hnodes hreq
  have hex : load.runE (fun _ => ([⟨"n1", 1⟩, ⟨"n2", 2⟩, ⟨"n3", 3⟩], none))
      ⟨flags.Name, ["n2"]⟩ args = .loadImage args [⟨"n2", 2⟩] := by
    rw [load.runE_of_request _ _ args [⟨"n1", 1⟩, ⟨"n2", 2⟩, ⟨"n3", 3⟩] rfl (by simp) (by simp)]
    rfl
  cases hf : flags.Nodes.find?
      (fun nm => decide ((load.runE.nodesByName nodeList).get? nm = none)) with
  | some name =>
    rw [hrun, load.pick_of_unknown _ _ _ [] hf] at hok
    cases hok
  | none =>
    obtain ⟨picked, hp, hall⟩ := load.pick_of_known _ _ [] hf
    rw [hrun, hp] at hok
    simp only [List.nil_append, load.Outcome.loadImage.injEq] at hok
    obtain ⟨h1, h2⟩ := hok
    subst h1 h2
    have hall2 : List.Forall₂ (fun name node => node ∈ nodeList ∧ node.name = name)
        flags.Nodes picked :=
      hall.imp (fun {_ _} h => load.nodesByName_get?_eq_some nodeList _ _ h)
    exact ⟨rfl, hall.length_eq.symm, hall2, load.map_name_of_forall₂ _ _ _ hall2, hex⟩

/-- Witness of C10: the nodes `n1`, `n2`, `n3` and the request `["n3", "n1"]`. -/
theorem runE_selected_nodes_witness :
    List.Forall₂ (fun name node =>
        node ∈ ([⟨"n1", 1⟩, ⟨"n2", 2⟩, ⟨"n3", 3⟩] : List Node) ∧ node.name = name)
      ["n3", "n1"] [⟨"n3", 3⟩, ⟨"n1", 1⟩] :=
  (runE_selected_nodes (fun _ => ([⟨"n1", 1⟩, ⟨"n2", 2⟩, ⟨"n3", 3⟩], none))
    ⟨"kind", ["n3", "n1"]⟩ ["busybox"] ["busybox"] [⟨"n1", 1⟩, ⟨"n2", 2⟩, ⟨"n3", 3⟩]
    [⟨"n3", 3⟩, ⟨"n1", 1⟩] rfl (by decide) (by decide) (by decide)).2.2.1


/-- C11: when the list of requested node names is empty (or absent, a `nil` slice) and
the live node list is non-empty, node resolution in `runE` keeps the live node list
as it is: the load is started with the same nodes, in the same order. -/
theorem runE_all_nodes (listInternalNodes : String → List Node × Option GoError)
    (flags : load.flagpole) (args : List String) (nodeList : List Node)
    (hlist : listInternalNodes flags.Name = (nodeList, none))
    (hnodes : nodeList ≠ []) (hreq : flags.Nodes = []) :
    load.runE listInternalNodes flags args = .loadImage args nodeList := by
  have h1 : ¬ nodeList.length = 0 := fun e => hnodes (List.length_eq_zero.1 e)
  unfold load.runE
  rw [hlist]
  simp only [h1, hreq, List.length_nil, gt_iff_lt, lt_self_iff_false, if_false]

/-- Witness of C11: the nodes `n1`, `n2`, `n3` and no requested name. -/
theorem runE_all_nodes_witness :
    load.runE (fun _ => ([⟨"n1", 1⟩, ⟨"n2", 2⟩, ⟨"n3", 3⟩], none)) ⟨"kind", []⟩ ["busybox"]
      = .loadImage ["busybox"] [⟨"n1", 1⟩, ⟨"n2", 2⟩, ⟨"n3", 3⟩] :=
  runE_all_nodes (fun _ => ([⟨"n1", 1⟩, ⟨"n2", 2⟩, ⟨"n3", 3⟩], none)) ⟨"kind", []⟩ ["busybox"]
    [⟨"n1", 1⟩, ⟨"n2", 2⟩, ⟨"n3", 3⟩] rfl (by decide) rfl

/-- C12: if node enumeration succeeds with an empty node list, `runE` and
`Action.Execute` both return the no-nodes-found error, whatever node names, images
or node configuration were given; they return it before any lookup of a name and
before any load task is built or run.  With an empty node list and the unknown
requested name `"n4"` the error is the no-nodes error, not the unknown-node error. -/
theorem no_nodes_found {σ : Type} (listInternalNodes listNodes : String → List Node × Option GoError)
    (flags : load.flagpole) (args : List String)
    (loadImage : List String → List Node → Option GoError)
    (MakeNodeNamer : String → loadimage.NodeNamer σ) (completion : List Nat)
    (config : loadimage.ConfigCluster)
    (hinternal : listInternalNodes flags.Name = ([], none))
    (hlist : listNodes config.Name = ([], none)) :
    load.runE listInternalNodes flags args = .returned (.noNodesFound flags.Name) ∧
    loadimage.Execute listNodes loadImage MakeNodeNamer completion config
      = .returned (.noNodesFound config.Name) ∧
    load.runE (fun _ => ([], none)) ⟨"kind", ["n4"]⟩ args = .returned (.noNodesFound "kind") := by
  refine ⟨?_, ?_, rfl⟩
  · unfold load.runE
    rw [hinternal]
    rfl
  · unfold loadimage.Execute
    rw [hlist]
    rfl

/-- Witness of C12: a cluster `kind` without nodes, a request for the node `n4` and a
configuration with one node that has an image to load. -/
theorem no_nodes_found_witness :
    load.runE (fun _ => ([], none)) ⟨"kind", ["n4"]⟩ ["busybox"]
        = .returned (.noNodesFound "kind") ∧
      loadimage.Execute (fun _ => ([], none)) (fun _ _ => none) loadimage.plainNamer [0]
          ⟨"kind", [⟨"worker", ["busybox"]⟩]⟩
        = .returned (.noNodesFound "kind") :=
  ⟨(no_nodes_found (fun _ => ([], none)) (fun _ => ([], none)) ⟨"kind", ["n4"]⟩ ["busybox"]
      (fun _ _ => none) loadimage.plainNamer [0] ⟨"kind", [⟨"worker", ["busybox"]⟩]⟩
      rfl rfl).1,
   (no_nodes_found (fun _ => ([], none)) (fun _ => ([], none)) ⟨"kind", ["n4"]⟩ ["busybox"]
      (fun _ _ => none) loadimage.plainNamer [0] ⟨"kind", [⟨"worker", ["busybox"]⟩]⟩
      rfl rfl).2.1⟩

/-! ## Load dispatch -/

namespace common

theorem RemoveDuplicates_nodup (l : List String) : (RemoveDuplicates l).Nodup :=
  (RemoveDuplicates_loop_invariant l [] GoMap.empty List.nodup_nil
    (by intro k; simp [GoMap_get?_empty])).1

theorem RemoveDuplicates_eq_nil_iff (l : List String) : RemoveDuplicates l = [] ↔ l = [] := by
  have hmem : ∀ k, k ∈ RemoveDuplicates l ↔ k ∈ l := by
    intro k
    have h := (RemoveDuplicates_loop_invariant l [] GoMap.empty List.nodup_nil
      (by intro k; simp [GoMap_get?_empty])).2 k
    unfold RemoveDuplicates
    rw [h]
    simp
  constructor
  · intro he
    rw [List.eq_nil_iff_forall_not_mem]
    intro k hk
    have := (hmem k).2 hk
    rw [he] at this
    exact List.not_mem_nil _ this
  · intro he
    subst he
    rfl

end common

namespace loadimage

theorem Execute_step_eq {σ : Type} (m : GoMap Node) (call : σ → String → String × σ)
    (s : σ) (acc : List LoadTask) (c : ConfigNode) :
    Execute.step m call (s, acc) c
      = ((call s c.Role).2,
          acc ++ (Execute.taskFor m (c, (call s c.Role).1)).toList) := by
  unfold Execute.step Execute.taskFor
  simp only
  by_cases h : (common.RemoveDuplicates c.LoadImages).length = 0
  · simp [h]
  · rw [if_neg h, if_neg h]
    cases hg : m.get? (call s c.Role).1 <;> simp

/-- The loop of `Action.Execute` appends, in the order of the configured nodes, the
task of each configured node that has one. -/
theorem Execute_loop {σ : Type} (m : GoMap Node) (call : σ → String → String × σ)
    (cs : List ConfigNode) :
    ∀ (s : σ) (acc : List LoadTask),
      (cs.foldl (Execute.step m call) (s, acc)).2
        = acc ++ (List.zip cs (Execute.nodeNames call s cs)).filterMap (Execute.taskFor m) := by
  induction cs with
  | nil => intro s acc; simp [Execute.nodeNames]
  | cons c rest ih =>
    intro s acc
    rw [List.foldl_cons, Execute_step_eq, ih]
    simp only [Execute.nodeNames, List.zip_cons_cons, List.filterMap_cons]
    cases Execute.taskFor m (c, (call s c.Role).1) <;> simp

theorem Execute_fns_eq {σ : Type} (m : GoMap Node) (nodeNamer : NodeNamer σ)
    (cs : List ConfigNode) :
    Execute.fns m nodeNamer cs
      = (List.zip cs (Execute.nodeNames nodeNamer.call nodeNamer.state cs)).filterMap
          (Execute.taskFor m) := by
  unfold Execute.fns
  rw [Execute_loop]
  simp

theorem nodeNames_length {σ : Type} (call : σ → String → String × σ) (cs : List ConfigNode) :
    ∀ s : σ, (Execute.nodeNames call s cs).length = cs.length := by
  induction cs with
  | nil => intro s; rfl
  | cons c rest ih => intro s; simp [Execute.nodeNames, ih]

/-- What a task built for the configured node `p.1` under the name `p.2` holds. -/
theorem taskFor_eq_some (nodeList : List Node) (p : ConfigNode × String) (t : LoadTask)
    (h : Execute.taskFor (Execute.nodesByName nodeList) p = some t) :
    p.1.LoadImages ≠ [] ∧ t.images = common.RemoveDuplicates p.1.LoadImages ∧
      ∃ node ∈ nodeList, node.name = p.2 ∧ t.nodeList = [node] := by
  unfold Execute.taskFor at h
  by_cases h0 : (common.RemoveDuplicates p.1.LoadImages).length = 0
  · rw [if_pos h0] at h; cases h
  · rw [if_neg h0, Option.map_eq_some'] at h
    obtain ⟨node, hnode, rfl⟩ := h
    obtain ⟨hmem, hname⟩ := load.nodesByName_get?_eq_some nodeList p.2 node hnode
    refine ⟨?_, rfl, node, hmem, hname, rfl⟩
    intro he
    exact h0 (by rw [(common.RemoveDuplicates_eq_nil_iff _).2 he]; rfl)

theorem taskFor_isSome_iff (nodeList : List Node) (p : ConfigNode × String) :
    (Execute.taskFor (Execute.nodesByName nodeList) p).isSome = true ↔
      (p.1.LoadImages ≠ [] ∧ ∃ n ∈ nodeList, n.name = p.2) := by
  constructor
  · intro h
    obtain ⟨t, ht⟩ := Option.isSome_iff_exists.1 h
    obtain ⟨h1, _, node, hmem, hname, _⟩ := taskFor_eq_some nodeList p t ht
    exact ⟨h1, node, hmem, hname⟩
  · rintro ⟨h1, n, hmem, hname⟩
    have h0 : ¬ (common.RemoveDuplicates p.1.LoadImages).length = 0 := by
      intro e
      exact h1 ((common.RemoveDuplicates_eq_nil_iff _).1 (List.length_eq_zero.1 e))
    have hg : (Execute.nodesByName nodeList).get? p.2 ≠ none := by
      intro e
      exact (load.nodesByName_get?_eq_none nodeList p.2).1 e n hmem hname
    unfold Execute.taskFor
    rw [if_neg h0]
    cases hq : (Execute.nodesByName nodeList).get? p.2 with
    | none => exact absurd hq hg
    | some node => rfl

theorem filterMap_kept {α β : Type} (f : α → Option β) (l : List α) :
    ∃ kept, List.Sublist kept l ∧ List.Forall₂ (fun a b => f a = some b) kept (l.filterMap f) := by
  induction l with
  | nil => exact ⟨[], List.Sublist.slnil, by simp⟩
  | cons a rest ih =>
    obtain ⟨kept, hs, hf⟩ := ih
    cases ha : f a with
    | none =>
      refine ⟨kept, hs.cons a, ?_⟩
      rw [List.filterMap_cons_none ha]
      exact hf
    | some b =>
      refine ⟨a :: kept, hs.cons₂ a, ?_⟩
      rw [List.filterMap_cons_some ha]
      exact List.Forall₂.cons ha hf

theorem length_filterMap_eq {α β : Type} (f : α → Option β) (l : List α) :
    (l.filterMap f).length = (l.filter (fun a => (f a).isSome)).length := by
  induction l with
  | nil => rfl
  | cons a rest ih =>
    cases ha : f a with
    | none => rw [List.filterMap_cons_none ha]; simp [List.filter_cons, ha, ih]
    | some b => rw [List.filterMap_cons_some ha]; simp [List.filter_cons, ha, ih]

theorem UntilErrorConcurrent_nil (completion : List Nat) :
    errors.UntilErrorConcurrent [] completion = none := by
  have h : errors.UntilErrorConcurrent.arrivals 0 completion = [] := by
    simp [errors.UntilErrorConcurrent.arrivals]
  unfold errors.UntilErrorConcurrent errors.UntilErrorConcurrent.run
  simp only [List.length_nil, h, List.map_nil]
  rfl

/-- The part of `Action.Execute` after a successful, non-empty node listing. -/
theorem Execute_of_nodes {σ : Type} (listNodes : String → List Node × Option GoError)
    (loadImage : List String → List Node → Option GoError)
    (MakeNodeNamer : String → NodeNamer σ) (completion : List Nat)
    (config : ConfigCluster) (nodeList : List Node)
    (hlist : listNodes config.Name = (nodeList, none)) (hnodes : nodeList ≠ []) :
    Execute listNodes loadImage MakeNodeNamer completion config
      = .dispatched
          (Execute.fns (Execute.nodesByName nodeList) (MakeNodeNamer config.Name) config.Nodes)
          (errors.UntilErrorConcurrent
            ((Execute.fns (Execute.nodesByName nodeList) (MakeNodeNamer config.Name)
              config.Nodes).map (fun t _ => loadImage t.images t.nodeList)) completion) := by
  have h1 : ¬ nodeList.length = 0 := fun e => hnodes (List.length_eq_zero.1 e)
  unfold Execute
  rw [hlist]
  simp only [h1, if_false]

end loadimage

/-- C13: after a successful, non-empty node listing `Action.Execute` builds its load
tasks without returning an error of its own.  Every task binds exactly one live node
to an image list that is non-empty and duplicate-free; the tasks are, in the order of
the configured nodes, those of a sub-list of the configured nodes, one task per kept
configured node, whose image list is `RemoveDuplicates` of the `LoadImages` of that
configured node and whose node bears the name computed for it.  A configured node
with an empty image list is not kept and causes no error: when every configured node
has an empty list, no task is built and the call succeeds. -/
theorem Execute_load_tasks {σ : Type} (listNodes : String → List Node × Option GoError)
    (loadImage : List String → List Node → Option GoError)
    (MakeNodeNamer : String → loadimage.NodeNamer σ) (completion : List Nat)
    (config : loadimage.ConfigCluster) (nodeList : List Node)
    (hlist : listNodes config.Name = (nodeList, none)) (hnodes : nodeList ≠ []) :
    ∃ fns,
      loadimage.Execute listNodes loadImage MakeNodeNamer completion config
        = .dispatched fns (errors.UntilErrorConcurrent
            (fns.map (fun t _ => loadImage t.images t.nodeList)) completion) ∧
      (∀ t ∈ fns, t.images ≠ [] ∧ t.images.Nodup ∧ ∃ node ∈ nodeList, t.nodeList = [node]) ∧
      (∃ kept,
        List.Sublist kept (List.zip config.Nodes
          (loadimage.Execute.nodeNames (MakeNodeNamer config.Name).call
            (MakeNodeNamer config.Name).state config.Nodes)) ∧
        List.Forall₂ (fun p t =>
            p.1.LoadImages ≠ [] ∧ t.images = common.RemoveDuplicates p.1.LoadImages ∧
              ∃ node ∈ nodeList, node.name = p.2 ∧ t.nodeList = [node]) kept fns) ∧
      (List.zip config.Nodes
          (loadimage.Execute.nodeNames (MakeNodeNamer config.Name).call
            (MakeNodeNamer config.Name).state config.Nodes)).map Prod.fst = config.Nodes ∧
      fns.length ≤ config.Nodes.length ∧
      ((∀ c ∈ config.Nodes, c.LoadImages = []) →
        loadimage.Execute listNodes loadImage MakeNodeNamer completion config
          = .dispatched [] none) := by
  have hrun := loadimage.Execute_of_nodes listNodes loadImage MakeNodeNamer completion config
    nodeList hlist hnodes
  have hfns := loadimage.Execute_fns_eq (loadimage.Execute.nodesByName nodeList)
    (MakeNodeNamer config.Name) config.Nodes
  obtain ⟨kept, hsub, hall⟩ := loadimage.filterMap_kept
    (loadimage.Execute.taskFor (loadimage.Execute.nodesByName nodeList))
    (List.zip config.Nodes (loadimage.Execute.nodeNames (MakeNodeNamer config.Name).call
      (MakeNodeNamer config.Name).state config.Nodes))
  rw [← hfns] at hall
  have hall2 := hall.imp (fun {p t} h => loadimage.taskFor_eq_some nodeList p t h)
  have hlen := loadimage.nodeNames_length (MakeNodeNamer config.Name).call config.Nodes
    (MakeNodeNamer config.Name).state
  refine ⟨_, hrun, ?_, ⟨kept, hsub, hall2⟩, ?_, ?_, ?_⟩
  · intro t ht
    rw [hfns, List.mem_filterMap] at ht
    obtain ⟨p, _, hp⟩ := ht
    obtain ⟨h1, h2, node, hmem, _, hnl⟩ := loadimage.taskFor_eq_some nodeList p t hp
    refine ⟨?_, ?_, node, hmem, hnl⟩
    · rw [h2]
      exact fun e => h1 ((common.RemoveDuplicates_eq_nil_iff _).1 e)
    · rw [h2]
      exact common.RemoveDuplicates_nodup _
  · exact List.map_fst_zip _ _ (le_of_eq hlen.symm)
  · rw [hfns]
    refine le_trans (List.length_filterMap_le _ _) ?_
    rw [List.length_zip, hlen, min_self]
  · intro hempty
    have hnil : loadimage.Execute.fns (loadimage.Execute.nodesByName nodeList)
        (MakeNodeNamer config.Name) config.Nodes = [] := by
      rw [hfns, List.filterMap_eq_nil_iff]
      intro p hp
      have hc : p.1 ∈ config.Nodes := (List.of_mem_zip hp).1
      unfold loadimage.Execute.taskFor
      rw [hempty p.1 hc]
      rfl
    rw [hrun, hnil]
    simp only [List.map_nil]
    rw [loadimage.UntilErrorConcurrent_nil]

/-- Witness of C13: the live nodes `kind-control-plane` and `kind-worker`, a
configuration whose control-plane has no image and whose worker lists `a`, `b`, `a`,
and a loader that always succeeds: one task, for the worker, with `["a", "b"]`. -/
theorem Execute_load_tasks_witness :
    ∃ fns,
      loadimage.Execute (fun _ => ([⟨"kind-control-plane", 1⟩, ⟨"kind-worker", 2⟩], none))
          (fun _ _ => none) loadimage.plainNamer [0]
          ⟨"kind", [⟨"control-plane", []⟩, ⟨"worker", ["a", "b", "a"]⟩]⟩
        = .dispatched fns (errors.UntilErrorConcurrent
            (fns.map (fun t _ => (fun _ _ => none) t.images t.nodeList)) [0]) ∧
      (∀ t ∈ fns, t.images ≠ [] ∧ t.images.Nodup ∧
        ∃ node ∈ ([⟨"kind-control-plane", 1⟩, ⟨"kind-worker", 2⟩] : List Node),
          t.nodeList = [node]) ∧
      fns = [⟨["a", "b"], [⟨"kind-worker", 2⟩]⟩] := by
  obtain ⟨fns, h1, h2, _⟩ := Execute_load_tasks
    (fun _ => ([⟨"kind-control-plane", 1⟩, ⟨"kind-worker", 2⟩], none))
    (fun _ _ => none) loadimage.plainNamer [0]
    ⟨"kind", [⟨"control-plane", []⟩, ⟨"worker", ["a", "b", "a"]⟩]⟩
    [⟨"kind-control-plane", 1⟩, ⟨"kind-worker", 2⟩] rfl (by decide)
  refine ⟨fns, h1, h2, ?_⟩
  have hev : loadimage.Execute
      (fun _ => ([⟨"kind-control-plane", 1⟩, ⟨"kind-worker", 2⟩], none))
      (fun _ _ => none) loadimage.plainNamer [0]
      ⟨"kind", [⟨"control-plane", []⟩, ⟨"worker", ["a", "b", "a"]⟩]⟩
      = .dispatched [⟨["a", "b"], [⟨"kind-worker", 2⟩]⟩] none := by decide
  rw [hev] at h1
  injection h1 with h3 _
  exact h3.symm

/-- C20: in `Action.Execute`, a configured node with a non-empty image list whose
computed node name is the name of no live node is skipped silently: the call does not
return an error of its own, and the number of tasks is the number of configured nodes
that have a non-empty image list and whose computed name is the name of a live node.
With the one live node `kind-control-plane`, a configured `worker` is skipped: with a
loader that would fail on every call, a configuration of that worker alone gives no
task and no error. -/
theorem Execute_skips_unmatched {σ : Type} (listNodes : String → List Node × Option GoError)
    (loadImage : List String → List Node → Option GoError)
    (MakeNodeNamer : String → loadimage.NodeNamer σ) (completion : List Nat)
    (config : loadimage.ConfigCluster) (nodeList : List Node)
    (hlist : listNodes config.Name = (nodeList, none)) (hnodes : nodeList ≠ []) :
    (∃ fns err,
      loadimage.Execute listNodes loadImage MakeNodeNamer completion config
        = .dispatched fns err ∧
      fns.length =
        ((List.zip config.Nodes
            (loadimage.Execute.nodeNames (MakeNodeNamer config.Name).call
              (MakeNodeNamer config.Name).state config.Nodes)).filter
          (fun p => decide (p.1.LoadImages ≠ [] ∧ ∃ n ∈ nodeList, n.name = p.2))).length) ∧
    loadimage.Execute (fun _ => ([⟨"kind-control-plane", 1⟩], none))
        (fun _ _ => some (.external "load failed")) loadimage.plainNamer completion
        ⟨"kind", [⟨"worker", ["busybox"]⟩]⟩
      = .dispatched [] none ∧
    loadimage.Execute (fun _ => ([⟨"kind-control-plane", 1⟩], none))
        (fun _ _ => none) loadimage.plainNamer [0]
        ⟨"kind", [⟨"control-plane", ["busybox"]⟩, ⟨"worker", ["busybox"]⟩]⟩
      = .dispatched [⟨["busybox"], [⟨"kind-control-plane", 1⟩]⟩] none := by
  have hrun := loadimage.Execute_of_nodes listNodes loadImage MakeNodeNamer completion config
    nodeList hlist hnodes
  refine ⟨⟨_, _, hrun, ?_⟩, ?_, by decide⟩
  · rw [loadimage.Execute_fns_eq, loadimage.length_filterMap_eq]
    congr 2
    funext p
    rw [Bool.eq_iff_iff, loadimage.taskFor_isSome_iff]
    simp
  · rw [loadimage.Execute_of_nodes _ _ _ completion _ [⟨"kind-control-plane", 1⟩] rfl (by simp)]
    have hnil : loadimage.Execute.fns
        (loadimage.Execute.nodesByName [⟨"kind-control-plane", 1⟩])
        (loadimage.plainNamer "kind") [⟨"worker", ["busybox"]⟩] = [] := by decide
    rw [hnil]
    simp only [List.map_nil]
    rw [loadimage.UntilErrorConcurrent_nil]

/-- Witness of C20: the one live node `kind-control-plane` and a configuration with a
control-plane and a worker, each with an image: one task. -/
theorem Execute_skips_unmatched_witness :
    ∃ fns err,
      loadimage.Execute (fun _ => ([⟨"kind-control-plane", 1⟩], none))
          (fun _ _ => none) loadimage.plainNamer [0]
          ⟨"kind", [⟨"control-plane", ["busybox"]⟩, ⟨"worker", ["busybox"]⟩]⟩
        = .dispatched fns err ∧
      fns.length =
        ((List.zip [(⟨"control-plane", ["busybox"]⟩ : loadimage.ConfigNode),
              ⟨"worker", ["busybox"]⟩]
            (loadimage.Execute.nodeNames (loadimage.plainNamer "kind").call
              (loadimage.plainNamer "kind").state
              [⟨"control-plane", ["busybox"]⟩, ⟨"worker", ["busybox"]⟩])).filter
          (fun p => decide (p.1.LoadImages ≠ [] ∧
            ∃ n ∈ ([⟨"kind-control-plane", 1⟩] : List Node), n.name = p.2))).length :=
  (Execute_skips_unmatched (fun _ => ([⟨"kind-control-plane", 1⟩], none))
    (fun _ _ => none) loadimage.plainNamer [0]
    ⟨"kind", [⟨"control-plane", ["busybox"]⟩, ⟨"worker", ["busybox"]⟩]⟩
    [⟨"kind-control-plane", 1⟩] rfl (by decide)).1

/-! ## Task runner -/

namespace errors

theorem arrivals_nodup (n : Nat) (completion : List Nat) :
    (UntilErrorConcurrent.arrivals n completion).Nodup := by
  unfold UntilErrorConcurrent.arrivals
  rw [List.nodup_append]
  refine ⟨?_, (List.nodup_range n).filter _, ?_⟩
  · rw [List.nodup_reverse]
    exact List.nodup_dedup _
  · intro i h1 h2
    have hin : i ∈ completion := by
      rw [List.mem_reverse, List.mem_dedup, List.mem_reverse, List.mem_filter] at h1
      exact h1.1
    rw [List.mem_filter] at h2
    exact (of_decide_eq_true h2.2) hin

theorem mem_arrivals (n : Nat) (completion : List Nat) (i : Nat) :
    i ∈ UntilErrorConcurrent.arrivals n completion ↔ i < n := by
  unfold UntilErrorConcurrent.arrivals
  rw [List.mem_append, List.mem_reverse, List.mem_dedup, List.mem_reverse, List.mem_filter,
    List.mem_filter, List.mem_range]
  constructor
  · rintro (⟨_, h⟩ | ⟨h, _⟩)
    · exact of_decide_eq_true h
    · exact h
  · intro h
    by_cases hc : i ∈ completion
    · exact Or.inl ⟨hc, decide_eq_true h⟩
    · exact Or.inr ⟨h, decide_eq_true hc⟩

/-- Every started task finishes exactly once. -/
theorem arrivals_perm (n : Nat) (completion : List Nat) :
    (UntilErrorConcurrent.arrivals n completion).Perm (List.range n) := by
  rw [List.perm_ext_iff_of_nodup (arrivals_nodup n completion) (List.nodup_range n)]
  intro i
  rw [mem_arrivals, List.mem_range]

/-- A completion order that lists every task once is kept as it is. -/
theorem arrivals_of_perm (n : Nat) (completion : List Nat)
    (hperm : completion.Perm (List.range n)) :
    UntilErrorConcurrent.arrivals n completion = completion := by
  have hnd : completion.Nodup := (hperm.nodup_iff).2 (List.nodup_range n)
  have hlt : ∀ i ∈ completion, i < n := fun i hi => List.mem_range.1 ((hperm.mem_iff).1 hi)
  have h1 : completion.filter (fun i => decide (i < n)) = completion :=
    List.filter_eq_self.2 (fun i hi => decide_eq_true (hlt i hi))
  have h2 : (List.range n).filter (fun i => decide (i ∉ completion)) = [] := by
    rw [List.filter_eq_nil_iff]
    intro i hi hd
    exact (of_decide_eq_true hd) ((hperm.mem_iff).2 hi)
  unfold UntilErrorConcurrent.arrivals
  rw [h1, h2, (List.nodup_reverse.2 hnd).dedup, List.reverse_reverse, List.append_nil]

theorem receive_fst (l : List (Option GoError)) :
    ∀ k, (UntilErrorConcurrent.receive l k).1 = l.findSome? id := by
  induction l with
  | nil => intro k; rfl
  | cons x rest ih =>
    intro k
    cases x with
    | none => simp only [UntilErrorConcurrent.receive, List.findSome?_cons, id]; exact ih _
    | some e => simp only [UntilErrorConcurrent.receive, List.findSome?_cons, id]

/-- With no error on the channel the runner takes every outcome. -/
theorem receive_of_all_none (l : List (Option GoError)) :
    ∀ k, (∀ x ∈ l, x = none) → UntilErrorConcurrent.receive l k = (none, k + l.length) := by
  induction l with
  | nil => intro k _; rfl
  | cons x rest ih =>
    intro k h
    have hx : x = none := h x (List.mem_cons_self _ _)
    subst hx
    simp only [UntilErrorConcurrent.receive]
    rw [ih (k + 1) (fun y hy => h y (List.mem_cons_of_mem _ hy)), List.length_cons]
    congr 1
    omega

/-- The runner returns at the first error on the channel and takes nothing after it. -/
theorem receive_of_first_error (before : List (Option GoError)) (e : GoError)
    (after : List (Option GoError)) :
    ∀ k, (∀ x ∈ before, x = none) →
      UntilErrorConcurrent.receive (before ++ some e :: after) k
        = (some e, k + before.length + 1) := by
  induction before with
  | nil => intro k _; simp [UntilErrorConcurrent.receive]
  | cons x rest ih =>
    intro k h
    have hx : x = none := h x (List.mem_cons_self _ _)
    subst hx
    have hstep : UntilErrorConcurrent.receive ((none :: rest) ++ some e :: after) k
        = UntilErrorConcurrent.receive (rest ++ some e :: after) (k + 1) := rfl
    rw [hstep, ih (k + 1) (fun y hy => h y (List.mem_cons_of_mem _ hy)), List.length_cons]
    congr 1
    omega

theorem UntilErrorConcurrent_eq_findSome? (funcs : List Task) (completion : List Nat) :
    UntilErrorConcurrent funcs completion
      = (UntilErrorConcurrent.arrivals funcs.length completion).findSome?
          (UntilErrorConcurrent.outcome funcs) := by
  unfold UntilErrorConcurrent UntilErrorConcurrent.run
  rw [receive_fst, List.findSome?_map]
  rfl

theorem outcome_of_getElem? (funcs : List Task) (i : Nat) (f : Task)
    (h : funcs[i]? = some f) : UntilErrorConcurrent.outcome funcs i = f () := by
  unfold UntilErrorConcurrent.outcome
  rw [h]

/-- All outcomes are successes exactly when every task succeeds. -/
theorem all_outcomes_none_iff (funcs : List Task) (completion : List Nat) :
    (∀ i ∈ UntilErrorConcurrent.arrivals funcs.length completion,
        UntilErrorConcurrent.outcome funcs i = none) ↔ ∀ f ∈ funcs, f () = none := by
  constructor
  · intro h f hf
    obtain ⟨i, hi⟩ := List.mem_iff_getElem?.1 hf
    have hlt : i < funcs.length := by
      by_contra hge
      rw [List.getElem?_eq_none (by omega)] at hi
      cases hi
    rw [← outcome_of_getElem? funcs i f hi]
    exact h i ((mem_arrivals _ _ _).2 hlt)
  · intro h i _
    unfold UntilErrorConcurrent.outcome
    cases hf : funcs[i]? with
    | none => rfl
    | some f => exact h f (List.mem_iff_getElem?.2 ⟨i, hf⟩)

end errors

/-- C14 (counterexample): three tasks of which the second and the third fail, the third
finishing first.  The runner returns the error of the third task, not that of the
second, which is the first failing task in task-start order, and it returns after
taking one outcome of three, without waiting for the first and the second task.
`Action.Execute` on three nodes returns the error of the third node likewise. -/
theorem UntilErrorConcurrent_returns_earliest_error :
    errors.UntilErrorConcurrent
        [fun _ => none, fun _ => some (.external "second"), fun _ => some (.external "third")]
        [2, 0, 1]
      = some (.external "third") ∧
    List.findSome? (fun f : errors.Task => f ())
        [fun _ => none, fun _ => some (.external "second"), fun _ => some (.external "third")]
      = some (.external "second") ∧
    (errors.UntilErrorConcurrent.run
        [fun _ => none, fun _ => some (.external "second"), fun _ => some (.external "third")]
        [2, 0, 1]).2 = 1 ∧
    loadimage.Execute
        (fun _ => ([⟨"kind-a", 1⟩, ⟨"kind-b", 2⟩, ⟨"kind-c", 3⟩], none))
        (fun _ nodes =>
          if nodes = [⟨"kind-b", 2⟩] then some (.external "second")
          else if nodes = [⟨"kind-c", 3⟩] then some (.external "third") else none)
        loadimage.plainNamer [2, 0, 1]
        ⟨"kind", [⟨"a", ["busybox"]⟩, ⟨"b", ["busybox"]⟩, ⟨"c", ["busybox"]⟩]⟩
      = .dispatched
          [⟨["busybox"], [⟨"kind-a", 1⟩]⟩, ⟨["busybox"], [⟨"kind-b", 2⟩]⟩,
            ⟨["busybox"], [⟨"kind-c", 3⟩]⟩]
          (some (.external "third")) := by
  decide

/-- C14 (amended): the task runner starts all tasks, and every task finishes once, in
the order `arrivals`, which is `completion` when that lists every task once.  The
runner returns success exactly when every task succeeds, and then it has waited for
every task.  Otherwise it returns the error of the first failing task in completion
order (not task-start order), as soon as that task has finished: it has waited for
that task and the tasks that finished before it, and for none that finish later. -/
theorem UntilErrorConcurrent_first_completing_error (funcs : List errors.Task)
    (completion : List Nat) :
    (errors.UntilErrorConcurrent.arrivals funcs.length completion).Perm
      (List.range funcs.length) ∧
    (completion.Perm (List.range funcs.length) →
      errors.UntilErrorConcurrent.arrivals funcs.length completion = completion) ∧
    (errors.UntilErrorConcurrent funcs completion = none ↔ ∀ f ∈ funcs, f () = none) ∧
    ((∀ f ∈ funcs, f () = none) →
      errors.UntilErrorConcurrent.run funcs completion = (none, funcs.length)) ∧
    (∀ e, errors.UntilErrorConcurrent funcs completion = some e ↔
      ∃ before i after,
        errors.UntilErrorConcurrent.arrivals funcs.length completion = before ++ i :: after ∧
        errors.UntilErrorConcurrent.outcome funcs i = some e ∧
        ∀ j ∈ before, errors.UntilErrorConcurrent.outcome funcs j = none) ∧
    (∀ e before i after,
      errors.UntilErrorConcurrent.arrivals funcs.length completion = before ++ i :: after →
      errors.UntilErrorConcurrent.outcome funcs i = some e →
      (∀ j ∈ before, errors.UntilErrorConcurrent.outcome funcs j = none) →
      errors.UntilErrorConcurrent.run funcs completion = (some e, before.length + 1)) := by
  refine ⟨errors.arrivals_perm _ _, errors.arrivals_of_perm _ _, ?_, ?_, ?_, ?_⟩
  · rw [errors.UntilErrorConcurrent_eq_findSome?, List.findSome?_eq_none_iff,
      errors.all_outcomes_none_iff]
  · intro h
    have hall : ∀ x ∈ (errors.UntilErrorConcurrent.arrivals funcs.length completion).map
        (errors.UntilErrorConcurrent.outcome funcs), x = none := by
      intro x hx
      obtain ⟨i, hi, rfl⟩ := List.mem_map.1 hx
      exact (errors.all_outcomes_none_iff funcs completion).2 h i hi
    unfold errors.UntilErrorConcurrent.run
    rw [errors.receive_of_all_none _ 0 hall, List.length_map,
      (errors.arrivals_perm funcs.length completion).length_eq, List.length_range, Nat.zero_add]
  · intro e
    rw [errors.UntilErrorConcurrent_eq_findSome?, List.findSome?_eq_some_iff]
  · intro e before i after harr hi hbefore
    unfold errors.UntilErrorConcurrent.run
    rw [harr, List.map_append, List.map_cons, hi,
      errors.receive_of_first_error _ e _ 0 (by
        intro x hx
        obtain ⟨j, hj, rfl⟩ := List.mem_map.1 hx
        exact hbefore j hj),
      List.length_map, Nat.zero_add]

/-- Witness of C14 (amended): three tasks that finish in the order third, first, second,
of which only the second fails; the runner has waited for all three when it returns
the error. -/
theorem UntilErrorConcurrent_first_completing_error_witness :
    errors.UntilErrorConcurrent.run
        [fun _ => none, fun _ => some (.external "second"), fun _ => none] [2, 0, 1]
      = (some (.external "second"), 3) :=
  (UntilErrorConcurrent_first_completing_error
    [fun _ => none, fun _ => some (.external "second"), fun _ => none] [2, 0, 1]).2.2.2.2.2
    (.external "second") [2, 0] 1 [] (by decide) (by decide) (by decide)

/-! ## More on name normalisation -/

namespace common

theorem mem_of_mem_afterLastSlash (ref : String) (c : Char)
    (h : c ∈ (afterLastSlash ref).data) : c ∈ ref.data := by
  unfold afterLastSlash at h
  simp only [List.mem_reverse] at h
  have hs := (List.takeWhile_sublist (l := ref.data.reverse)
    (fun c => decide (c ≠ '/'))).subset h
  exact List.mem_reverse.1 hs

theorem colon_mem_append_iff (p s : String) (hp : ':' ∉ p.data) :
    ':' ∈ (p ++ s).data ↔ ':' ∈ s.data := by
  rw [String.data_append, List.mem_append]
  constructor
  · rintro (h | h)
    · exact absurd h hp
    · exact h
  · exact Or.inr

/-- The first two steps, by cases on the shape of the reference. -/
theorem withDomain_withRepo_cases (s : String) :
    ('/' ∉ s.data →
      sanitizeImage.withDomain (sanitizeImage.withRepo s) = "docker.io/library/" ++ s) ∧
    ('/' ∈ s.data → IsRegistryDomain (beforeFirstSlash s) →
      sanitizeImage.withDomain (sanitizeImage.withRepo s) = s) ∧
    ('/' ∈ s.data → ¬ IsRegistryDomain (beforeFirstSlash s) →
      sanitizeImage.withDomain (sanitizeImage.withRepo s) = "docker.io/" ++ s) := by
  refine ⟨fun h => ?_, fun h hd => ?_, fun h hd => ?_⟩
  · have hs : '/' ∈ ("library/" ++ s).data := by simp [String.data_append]
    have hd : ¬ IsRegistryDomain (beforeFirstSlash ("library/" ++ s)) := by
      rw [beforeFirstSlash_append _ _ (by decide)]
      decide
    rw [withRepo_of_not_mem s h, withDomain_of_not_domain _ hs hd, ← String.append_assoc]
    rfl
  · rw [withRepo_of_mem s h, withDomain_of_domain s h hd]
  · rw [withRepo_of_mem s h, withDomain_of_not_domain s h hd]

theorem withTag_cases (t : String) :
    sanitizeImage.withTag t = t ++ "" ∨ sanitizeImage.withTag t = t ++ ":latest" := by
  by_cases ht : ':' ∈ t.data
  · left
    rw [withTag_of_mem t ht]
    exact String.ext (by simp [String.data_append])
  · right
    exact withTag_of_not_mem t ht

end common

/-- C15: a fully qualified reference is a fixed point of normalisation: when `ref`
contains a `/`, the part before its first `/` contains `.` or `:` or is `localhost`,
and there is a `:` after its last `/`, then `sanitizeImage ref = ref`. -/
theorem sanitizeImage_fixed_point (ref : String) (h : '/' ∈ ref.data)
    (hd : common.IsRegistryDomain (common.beforeFirstSlash ref))
    (ht : ':' ∈ (common.afterLastSlash ref).data) :
    common.sanitizeImage ref = ref :=
  common.sanitizeImage_of_qualified ref h hd (common.mem_of_mem_afterLastSlash ref ':' ht)

/-- Witness of C15: the reference `"docker.io/library/nginx:latest"`. -/
theorem sanitizeImage_fixed_point_witness :
    common.sanitizeImage "docker.io/library/nginx:latest" = "docker.io/library/nginx:latest" :=
  sanitizeImage_fixed_point "docker.io/library/nginx:latest" (by decide) (by decide) (by decide)

/-- C16: the result of `sanitizeImage` is registry-qualified for every string: it
contains a `/`, and the part before its first `/` contains `.` or `:` or is
`localhost`; so a second normalisation adds neither a namespace nor a domain. -/
theorem sanitizeImage_registry_qualified (s : String) :
    '/' ∈ (common.sanitizeImage s).data ∧
    ('.' ∈ (common.beforeFirstSlash (common.sanitizeImage s)).data ∨
      ':' ∈ (common.beforeFirstSlash (common.sanitizeImage s)).data ∨
      common.beforeFirstSlash (common.sanitizeImage s) = "localhost") ∧
    common.sanitizeImage.withRepo (common.sanitizeImage s) = common.sanitizeImage s ∧
    common.sanitizeImage.withDomain (common.sanitizeImage.withRepo (common.sanitizeImage s))
      = common.sanitizeImage s := by
  obtain ⟨h1, h2, _⟩ := common.sanitizeImage_qualified s
  refine ⟨h1, h2, common.withRepo_of_mem _ h1, ?_⟩
  rw [common.withRepo_of_mem _ h1, common.withDomain_of_domain _ h1 h2]

/-- C17: the bare, namespaced and fully qualified spellings of one image normalise to
the same string: for a repository name `r` with neither `/` nor `:`, `r`,
`"library/" ++ r`, `"docker.io/library/" ++ r` and `"docker.io/library/" ++ r ++ ":latest"`
all give `"docker.io/library/" ++ r ++ ":latest"`. -/
theorem sanitizeImage_spellings (r : String) (hs : '/' ∉ r.data) (hc : ':' ∉ r.data) :
    common.sanitizeImage r = "docker.io/library/" ++ r ++ ":latest" ∧
    common.sanitizeImage ("library/" ++ r) = "docker.io/library/" ++ r ++ ":latest" ∧
    common.sanitizeImage ("docker.io/library/" ++ r) = "docker.io/library/" ++ r ++ ":latest" ∧
    common.sanitizeImage ("docker.io/library/" ++ r ++ ":latest")
      = "docker.io/library/" ++ r ++ ":latest" := by
  have hfull : ':' ∉ ("docker.io/library/" ++ r).data := fun h =>
    hc ((common.colon_mem_append_iff _ _ (by decide)).1 h)
  have hslash : '/' ∈ ("docker.io/library/" ++ r).data := by simp [String.data_append]
  have hdom : common.IsRegistryDomain (common.beforeFirstSlash ("docker.io/library/" ++ r)) := by
    rw [common.beforeFirstSlash_append _ _ (by decide)]
    decide
  refine ⟨?_, ?_, ?_, ?_⟩
  · unfold common.sanitizeImage
    rw [(common.withDomain_withRepo_cases r).1 hs, common.withTag_of_not_mem _ hfull]
  · have h1 : '/' ∈ ("library/" ++ r).data := by simp [String.data_append]
    have h2 : ¬ common.IsRegistryDomain (common.beforeFirstSlash ("library/" ++ r)) := by
      rw [common.beforeFirstSlash_append _ _ (by decide)]
      decide
    have e : "docker.io/" ++ ("library/" ++ r) = "docker.io/library/" ++ r := by
      rw [← String.append_assoc]; rfl
    unfold common.sanitizeImage
    rw [(common.withDomain_withRepo_cases _).2.2 h1 h2, e, common.withTag_of_not_mem _ hfull]
  · unfold common.sanitizeImage
    rw [(common.withDomain_withRepo_cases _).2.1 hslash hdom, common.withTag_of_not_mem _ hfull]
  · apply common.sanitizeImage_of_qualified
    · simp [String.data_append]
    · rw [common.beforeFirstSlash_append _ _ hslash]
      exact hdom
    · simp [String.data_append]

/-- Witness of C17: the repository name `"nginx"`. -/
theorem sanitizeImage_spellings_witness :
    common.sanitizeImage ("library/" ++ "nginx") = "docker.io/library/" ++ "nginx" ++ ":latest" :=
  (sanitizeImage_spellings "nginx" (by decide) (by decide)).2.1

/-- C18: normalisation only adds text around the input: for every string `s`,
`sanitizeImage s = p ++ s ++ t` with `p` one of `""`, `"docker.io/"`,
`"docker.io/library/"` and `t` one of `""`, `":latest"`; the namespace is never added
without the domain, so the result is never `"library/" ++ s ++ t`. -/
theorem sanitizeImage_only_adds (s : String) :
    (∃ p t, (p = "" ∨ p = "docker.io/" ∨ p = "docker.io/library/") ∧
      (t = "" ∨ t = ":latest") ∧ common.sanitizeImage s = p ++ s ++ t) ∧
    (∀ t, (t = "" ∨ t = ":latest") → common.sanitizeImage s ≠ "library/" ++ s ++ t) ∧
    ('/' ∉ s.data →
      common.sanitizeImage.withDomain (common.sanitizeImage.withRepo s)
        = "docker.io/library/" ++ s) := by
  have hex : ∃ p t, (p = "" ∨ p = "docker.io/" ∨ p = "docker.io/library/") ∧
      (t = "" ∨ t = ":latest") ∧ common.sanitizeImage s = p ++ s ++ t := by
    have hp : ∃ p, (p = "" ∨ p = "docker.io/" ∨ p = "docker.io/library/") ∧
        common.sanitizeImage.withDomain (common.sanitizeImage.withRepo s) = p ++ s := by
      by_cases h : '/' ∈ s.data
      · by_cases hd : common.IsRegistryDomain (common.beforeFirstSlash s)
        · exact ⟨"", Or.inl rfl, by
            rw [(common.withDomain_withRepo_cases s).2.1 h hd]
            exact String.ext (by simp [String.data_append])⟩
        · exact ⟨"docker.io/", Or.inr (Or.inl rfl),
            (common.withDomain_withRepo_cases s).2.2 h hd⟩
      · exact ⟨"docker.io/library/", Or.inr (Or.inr rfl),
          (common.withDomain_withRepo_cases s).1 h⟩
    obtain ⟨p, hp1, hp2⟩ := hp
    unfold common.sanitizeImage
    rw [hp2]
    rcases common.withTag_cases (p ++ s) with ht | ht
    · exact ⟨p, "", hp1, Or.inl rfl, ht⟩
    · exact ⟨p, ":latest", hp1, Or.inr rfl, ht⟩
  refine ⟨hex, ?_, (common.withDomain_withRepo_cases s).1⟩
  intro t' ht' heq
  obtain ⟨p, t, hp, ht, hdec⟩ := hex
  have hlen := congrArg String.length (hdec.symm.trans heq)
  simp only [String.length_append] at hlen
  have l0 : ("" : String).length = 0 := rfl
  have l1 : ("docker.io/" : String).length = 10 := rfl
  have l2 : ("docker.io/library/" : String).length = 18 := rfl
  have l3 : (":latest" : String).length = 7 := rfl
  have l4 : ("library/" : String).length = 8 := rfl
  rcases hp with rfl | rfl | rfl <;> rcases ht with rfl | rfl <;>
    rcases ht' with rfl | rfl <;> omega

/-! ## More on the retag decision -/

/-- C19: whenever `CheckIfImageReTagRequired` returns `exists = false`, it also returns
`reTagRequired = false` and the empty string as `sanitizedImage`, which is not the
normalised name; hence `reTagRequired = true` implies `exists = true`. -/
theorem CheckIfImageReTagRequired_zero_results (node : Node) (imageID imageName : String)
    (tagFetcher : common.ImageTagFetcher)
    (h : (common.CheckIfImageReTagRequired node imageID imageName tagFetcher).1 = false) :
    (common.CheckIfImageReTagRequired node imageID imageName tagFetcher).2.1 = false ∧
    (common.CheckIfImageReTagRequired node imageID imageName tagFetcher).2.2 = "" ∧
    (common.CheckIfImageReTagRequired node imageID imageName tagFetcher).2.2
      ≠ common.sanitizeImage imageName ∧
    (∀ (n : Node) (id name : String) (f : common.ImageTagFetcher),
      (common.CheckIfImageReTagRequired n id name f).2.1 = true →
      (common.CheckIfImageReTagRequired n id name f).1 = true) := by
  have hne : ∀ name : String, "" ≠ common.sanitizeImage name := by
    intro name e
    have hm := (common.sanitizeImage_qualified name).1
    rw [← e] at hm
    exact absurd hm (by decide)
  have key : ∀ (n : Node) (id name : String) (f : common.ImageTagFetcher),
      (common.CheckIfImageReTagRequired n id name f).1 = false →
      common.CheckIfImageReTagRequired n id name f = (false, false, "") := by
    intro n id name f hf
    by_cases hc : (f n id).1.len = 0 ∨ (f n id).2 ≠ none
    · exact common.CheckIfImageReTagRequired_of_failure n id name f hc
    · rw [common.CheckIfImageReTagRequired_of_tags n id name f hc] at hf
      cases hf
  refine ⟨?_, ?_, ?_, ?_⟩
  · rw [key _ _ _ _ h]
  · rw [key _ _ _ _ h]
  · rw [key _ _ _ _ h]
    exact hne imageName
  · intro n id name f hre
    by_contra hex
    have hex2 : (common.CheckIfImageReTagRequired n id name f).1 = false := by
      simpa using hex
    rw [key _ _ _ _ hex2] at hre
    cases hre

/-- Witness of C19: a fetcher that fails, with a non-empty map beside the error. -/
theorem CheckIfImageReTagRequired_zero_results_witness :
    (common.CheckIfImageReTagRequired ⟨"node", 0⟩ "sha256:0" "nginx"
        (fun _ _ => (⟨[("docker.io/library/nginx:latest", true)]⟩,
          some (GoError.external "exec failed")))).2.2 = "" :=
  (CheckIfImageReTagRequired_zero_results ⟨"node", 0⟩ "sha256:0" "nginx"
    (fun _ _ => (⟨[("docker.io/library/nginx:latest", true)]⟩,
      some (GoError.external "exec failed"))) (by decide)).2.1
